import Mathlib

/-!
Verification of the link-preview fetch-and-extract engine (`main.go`).

The Go source resolves metadata with `regexp` patterns; the patterns used are
all of one restricted shape (literals, one-of-two-quote character classes,
greedy negated character classes `[^…]*`, and a single capture group), so we
embed them as a small backtracking matcher over that shape, faithful to the
leftmost-start / greedy-with-backtracking (Perl priority) semantics that the
Go `regexp` package documents for `FindStringSubmatch`.

Strings are modelled as `List Char`; the Go byte-level primitives
(`strings.ToLower`, `strings.TrimSpace`) are modelled on their ASCII behavior,
which is exact for the ASCII documents and keys the extractor is defined with.
-/

namespace LinkPreview

/-- The double-quote character. -/
def dq : Char := Char.ofNat 34

/-- The single-quote character. -/
def sq : Char := Char.ofNat 39

/-- One element of the restricted regular-expression shape used by `main.go`:
a literal, a one-character class, a greedy `[^excl]*`, or the (unique) greedy
capture group `([^excl]*)`. -/
inductive Elem where
  | lit (cs : List Char)
  | one (set : List Char)
  | star (excl : List Char)
  | grp (excl : List Char)
deriving Repr, DecidableEq

/-- Strip a literal from the front of the input; `none` when it is not there. -/
def chopLit : List Char → List Char → Option (List Char)
  | [], s => some s
  | _ :: _, [] => none
  | p :: ps, c :: cs => if p = c then chopLit ps cs else none

/-- Greedy backtracking for `[^…]*`: `rcon` is the consumed run in reverse
(longest consumption first), `rest` the remaining input; `k` matches the rest
of the pattern and reports the capture. -/
def backS (k : List Char → Option (List Char)) : List Char → List Char → Option (List Char)
  | rcon, rest =>
    match k rest with
    | some cap => some cap
    | none =>
      match rcon with
      | [] => none
      | c :: rcon2 => backS k rcon2 (c :: rest)

/-- Greedy backtracking for the capture group `([^…]*)`: like `backS` but the
captured text is the consumed run itself (the patterns of `main.go` contain
exactly one group, so the group's own text is the reported capture). -/
def backG (k : List Char → Option (List Char)) : List Char → List Char → Option (List Char)
  | rcon, rest =>
    match k rest with
    | some _ => some rcon.reverse
    | none =>
      match rcon with
      | [] => none
      | c :: rcon2 => backG k rcon2 (c :: rest)

/-- The maximal run of characters not in `excl` (what `[^excl]*` can consume). -/
def runOf (excl : List Char) (s : List Char) : List Char :=
  s.takeWhile (fun c => !(excl.contains c))

/-- Match a pattern at the start of `s`, Perl priority (greedy stars, longest
first), returning the text of the capture group (`[]` when the pattern has no
group). `none` when no match starts at this position. -/
def matchElems : List Elem → List Char → Option (List Char)
  | [], _ => some []
  | Elem.lit p :: es, s =>
    match chopLit p s with
    | some s2 => matchElems es s2
    | none => none
  | Elem.one set :: es, s =>
    match s with
    | [] => none
    | c :: cs => if set.contains c then matchElems es cs else none
  | Elem.star excl :: es, s =>
    backS (fun t => matchElems es t) (runOf excl s).reverse (s.drop (runOf excl s).length)
  | Elem.grp excl :: es, s =>
    backG (fun t => matchElems es t) (runOf excl s).reverse (s.drop (runOf excl s).length)
termination_by structural es _ => es

/-- Leftmost match: try every start position left to right, first success wins
(the documented semantics of Go `regexp.FindStringSubmatch`). -/
def findCap (es : List Elem) : List Char → Option (List Char)
  | [] => matchElems es []
  | c :: rest =>
    match matchElems es (c :: rest) with
    | some cap => some cap
    | none => findCap es rest

/-- `extractTag` of `main.go`: the first submatch of the pattern, or `""` when
there is no match (an empty capture and a failed match are indistinguishable
to the caller, exactly as in the Go code). -/
def extractTag (html : List Char) (pat : List Elem) : List Char :=
  match findCap pat html with
  | some cap => cap
  | none => []

/-- The quote class `["']`. -/
def qcls : List Char := [dq, sq]

/-- The pattern `<title[^>]*>([^<]*)</title>` used for the document title. -/
def titlePat : List Elem :=
  [Elem.lit "<title".data, Elem.star ['>'], Elem.lit ">".data,
   Elem.grp ['<'], Elem.lit "</title>".data]

/-- `<meta[^>]*name=["']KEY["'][^>]*content=["']([^"']*)["']`. -/
def metaNamePat (key : List Char) : List Elem :=
  [Elem.lit "<meta".data, Elem.star ['>'], Elem.lit "name=".data, Elem.one qcls,
   Elem.lit key, Elem.one qcls, Elem.star ['>'], Elem.lit "content=".data,
   Elem.one qcls, Elem.grp qcls, Elem.one qcls]

/-- `<meta[^>]*property=["']KEY["'][^>]*content=["']([^"']*)["']`. -/
def metaPropPat (key : List Char) : List Elem :=
  [Elem.lit "<meta".data, Elem.star ['>'], Elem.lit "property=".data, Elem.one qcls,
   Elem.lit key, Elem.one qcls, Elem.star ['>'], Elem.lit "content=".data,
   Elem.one qcls, Elem.grp qcls, Elem.one qcls]

/-- `<meta[^>]*content=["']([^"']*)["'][^>]*name=["']KEY["']`. -/
def metaNameRevPat (key : List Char) : List Elem :=
  [Elem.lit "<meta".data, Elem.star ['>'], Elem.lit "content=".data, Elem.one qcls,
   Elem.grp qcls, Elem.one qcls, Elem.star ['>'], Elem.lit "name=".data,
   Elem.one qcls, Elem.lit key, Elem.one qcls]

/-- `<meta[^>]*content=["']([^"']*)["'][^>]*property=["']KEY["']`. -/
def metaPropRevPat (key : List Char) : List Elem :=
  [Elem.lit "<meta".data, Elem.star ['>'], Elem.lit "content=".data, Elem.one qcls,
   Elem.grp qcls, Elem.one qcls, Elem.star ['>'], Elem.lit "property=".data,
   Elem.one qcls, Elem.lit key, Elem.one qcls]

/-- `extractMetaContent` of `main.go`: the four patterns are tried in a fixed
order (name, property, reversed name, reversed property); the first non-empty
capture wins. -/
def extractMetaContent (html : List Char) (metaName : List Char) : List Char :=
  let c1 := extractTag html (metaNamePat metaName)
  if c1 ≠ [] then c1 else
  let c2 := extractTag html (metaPropPat metaName)
  if c2 ≠ [] then c2 else
  let c3 := extractTag html (metaNameRevPat metaName)
  if c3 ≠ [] then c3 else
  extractTag html (metaPropRevPat metaName)

/-- ASCII whitespace trimmed by `strings.TrimSpace`. -/
def isSpaceCh (c : Char) : Bool :=
  c = ' ' || c = Char.ofNat 9 || c = Char.ofNat 10 ||
  c = Char.ofNat 11 || c = Char.ofNat 12 || c = Char.ofNat 13

/-- `strings.TrimSpace` (ASCII fragment). -/
def trimSpace (l : List Char) : List Char :=
  ((l.dropWhile isSpaceCh).reverse.dropWhile isSpaceCh).reverse

/-- `strings.ToLower` (ASCII fragment; `Char.toLower` lowers exactly `A`–`Z`). -/
def lowerL (l : List Char) : List Char := l.map Char.toLower

/-- The `LinkPreviewResponse` record of `main.go`. -/
structure LinkPreviewResponse where
  url : String
  title : String
  description : String
  image : String
  siteName : String
  error : String
deriving Repr, DecidableEq

/-- The zero value of `LinkPreviewResponse`, as at the start of
`FetchLinkPreview`. -/
def emptyResponse : LinkPreviewResponse :=
  { url := "", title := "", description := "", image := "", siteName := "", error := "" }

/-- `extractMetadata` of `main.go`: sequential conditional updates — the
document `<title>` on the original text, then each meta key on the lowercased
copy, later non-empty values overwriting earlier ones, each value trimmed. -/
def extractMetadata (htmlContent : String) (result : LinkPreviewResponse) : LinkPreviewResponse :=
  let html := htmlContent.data
  let lowerHTML := lowerL html
  let r1 :=
    let t := extractTag html titlePat
    if t ≠ [] then { result with title := String.mk (trimSpace t) } else result
  let r2 :=
    let og := extractMetaContent lowerHTML "og:title".data
    if og ≠ [] then { r1 with title := String.mk (trimSpace og) } else r1
  let r3 :=
    let d := extractMetaContent lowerHTML "description".data
    if d ≠ [] then { r2 with description := String.mk (trimSpace d) } else r2
  let r4 :=
    let og := extractMetaContent lowerHTML "og:description".data
    if og ≠ [] then { r3 with description := String.mk (trimSpace og) } else r3
  let r5 :=
    let og := extractMetaContent lowerHTML "og:image".data
    if og ≠ [] then { r4 with image := String.mk (trimSpace og) } else r4
  let r6 :=
    let og := extractMetaContent lowerHTML "og:site_name".data
    if og ≠ [] then { r5 with siteName := String.mk (trimSpace og) } else r5
  r6

/-- The Extractor entry point on a fresh result record (`Extract` of the
spec): `extractMetadata` applied to the zero record. -/
def extract (html : String) : LinkPreviewResponse :=
  extractMetadata html emptyResponse

/-! ### Basic lemmas about the matcher -/

theorem matchElems_nil (s : List Char) : matchElems [] s = some [] := by
  rw [matchElems.eq_def]

theorem matchElems_lit (p : List Char) (es : List Elem) (s : List Char) :
    matchElems (Elem.lit p :: es) s =
      match chopLit p s with
      | some s2 => matchElems es s2
      | none => none := by
  rw [matchElems.eq_def]

theorem matchElems_one (set : List Char) (es : List Elem) (s : List Char) :
    matchElems (Elem.one set :: es) s =
      match s with
      | [] => none
      | c :: cs => if set.contains c then matchElems es cs else none := by
  rw [matchElems.eq_def]

theorem matchElems_star (excl : List Char) (es : List Elem) (s : List Char) :
    matchElems (Elem.star excl :: es) s =
      backS (fun t => matchElems es t) (runOf excl s).reverse (s.drop (runOf excl s).length) := by
  rw [matchElems.eq_def]

theorem matchElems_grp (excl : List Char) (es : List Elem) (s : List Char) :
    matchElems (Elem.grp excl :: es) s =
      backG (fun t => matchElems es t) (runOf excl s).reverse (s.drop (runOf excl s).length) := by
  rw [matchElems.eq_def]

theorem findCap_nil (es : List Elem) : findCap es [] = matchElems es [] := by
  rw [findCap.eq_def]

theorem findCap_cons (es : List Elem) (c : Char) (rest : List Char) :
    findCap es (c :: rest) =
      match matchElems es (c :: rest) with
      | some cap => some cap
      | none => findCap es rest := by
  rw [findCap.eq_def]

theorem chopLit_eq_some : ∀ {p s t : List Char}, chopLit p s = some t → s = p ++ t := by
  intro p
  induction p with
  | nil => intro s t h; simpa [chopLit] using h
  | cons a ps ih =>
    intro s t h
    cases s with
    | nil => simp [chopLit] at h
    | cons c cs =>
      by_cases hac : a = c
      · subst hac
        simp only [chopLit, if_pos rfl] at h
        simpa using ih h
      · simp [chopLit, hac] at h

theorem backS_mem (k : List Char → Option (List Char))
    (hk : ∀ t cap, k t = some cap → ∀ c ∈ cap, c ∈ t) :
    ∀ (rcon rest cap : List Char), backS k rcon rest = some cap →
      ∀ c ∈ cap, c ∈ rcon ∨ c ∈ rest := by
  intro rcon
  induction rcon with
  | nil =>
    intro rest cap h c hc
    rw [backS] at h
    cases hkr : k rest with
    | some cap2 => rw [hkr] at h; simp at h; subst h; exact Or.inr (hk _ _ hkr c hc)
    | none => rw [hkr] at h; simp at h
  | cons a rcon2 ih =>
    intro rest cap h c hc
    rw [backS] at h
    cases hkr : k rest with
    | some cap2 =>
      rw [hkr] at h; simp at h; subst h; exact Or.inr (hk _ _ hkr c hc)
    | none =>
      rw [hkr] at h
      simp only at h
      rcases ih (a :: rest) cap h c hc with h1 | h2
      · exact Or.inl (List.mem_cons_of_mem _ h1)
      · rcases List.mem_cons.mp h2 with rfl | h3
        · exact Or.inl (List.mem_cons_self _ _)
        · exact Or.inr h3

theorem backG_mem (k : List Char → Option (List Char)) :
    ∀ (rcon rest cap : List Char), backG k rcon rest = some cap →
      ∀ c ∈ cap, c ∈ rcon := by
  intro rcon
  induction rcon with
  | nil =>
    intro rest cap h c hc
    rw [backG] at h
    cases hkr : k rest with
    | some cap2 => rw [hkr] at h; simp at h; subst h; simp at hc
    | none => rw [hkr] at h; simp at h
  | cons a rcon2 ih =>
    intro rest cap h c hc
    rw [backG] at h
    cases hkr : k rest with
    | some cap2 =>
      rw [hkr] at h; simp at h; subst h
      simp only [List.mem_append, List.mem_reverse, List.mem_singleton] at hc
      rcases hc with h1 | rfl
      · exact List.mem_cons_of_mem _ h1
      · exact List.mem_cons_self _ _
    | none =>
      rw [hkr] at h
      simp only at h
      exact List.mem_cons_of_mem _ (ih (a :: rest) cap h c hc)

theorem matchElems_mem : ∀ (es : List Elem) (s cap : List Char),
    matchElems es s = some cap → ∀ c ∈ cap, c ∈ s := by
  intro es
  induction es with
  | nil =>
    intro s cap h c hc
    rw [matchElems_nil] at h; simp at h; subst h; simp at hc
  | cons e es ih =>
    intro s cap h c hc
    cases e with
    | lit p =>
      rw [matchElems_lit] at h
      cases hcl : chopLit p s with
      | some s2 =>
        rw [hcl] at h
        have hs : s = p ++ s2 := chopLit_eq_some hcl
        have := ih s2 cap h c hc
        rw [hs]; exact List.mem_append_right _ this
      | none => rw [hcl] at h; simp at h
    | one set =>
      rw [matchElems_one] at h
      cases s with
      | nil => simp at h
      | cons a cs =>
        simp only [] at h
        by_cases hset : set.contains a
        · rw [if_pos hset] at h
          exact List.mem_cons_of_mem _ (ih cs cap h c hc)
        · rw [if_neg hset] at h; simp at h
    | star excl =>
      rw [matchElems_star] at h
      have := backS_mem (fun t => matchElems es t) (fun t cap h => ih t cap h)
        (runOf excl s).reverse (s.drop (runOf excl s).length) cap h c hc
      rcases this with h1 | h2
      · exact (List.takeWhile_sublist _).mem (List.mem_reverse.mp h1)
      · exact (List.drop_sublist _ _).mem h2
    | grp excl =>
      rw [matchElems_grp] at h
      have := backG_mem (fun t => matchElems es t)
        (runOf excl s).reverse (s.drop (runOf excl s).length) cap h c hc
      exact (List.takeWhile_sublist _).mem (List.mem_reverse.mp this)

theorem findCap_mem : ∀ (es : List Elem) (s cap : List Char),
    findCap es s = some cap → ∀ c ∈ cap, c ∈ s := by
  intro es s
  induction s with
  | nil => intro cap h c hc; rw [findCap_nil] at h; exact matchElems_mem es [] cap h c hc
  | cons a rest ih =>
    intro cap h c hc
    rw [findCap_cons] at h
    cases hm : matchElems es (a :: rest) with
    | some cap2 =>
      rw [hm] at h; simp at h; subst h
      exact matchElems_mem es (a :: rest) _ hm c hc
    | none =>
      rw [hm] at h; simp only at h
      exact List.mem_cons_of_mem _ (ih cap h c hc)

theorem extractTag_mem {html : List Char} {pat : List Elem} :
    ∀ c ∈ extractTag html pat, c ∈ html := by
  intro c hc
  unfold extractTag at hc
  cases hf : findCap pat html with
  | some cap => rw [hf] at hc; exact findCap_mem pat html cap hf c hc
  | none => rw [hf] at hc; simp at hc

theorem extractMetaContent_mem {html key : List Char} :
    ∀ c ∈ extractMetaContent html key, c ∈ html := by
  intro c hc
  simp only [extractMetaContent] at hc
  split_ifs at hc <;> exact extractTag_mem c hc

theorem trimSpace_mem {l : List Char} : ∀ c ∈ trimSpace l, c ∈ l := by
  intro c hc
  unfold trimSpace at hc
  have h1 := List.mem_reverse.mp hc
  have h2 := (@List.dropWhile_sublist Char ((l.dropWhile isSpaceCh).reverse) isSpaceCh).mem h1
  have h3 := List.mem_reverse.mp h2
  exact (List.dropWhile_sublist _).mem h3

/-! ### Lowercase characters -/

theorem char_toNat_ofNat_valid {n : Nat} (h : n.isValidChar) :
    (Char.ofNat n).toNat = n := by
  simp only [Char.ofNat, dif_pos h, Char.ofNatAux, Char.toNat, UInt32.toNat]
  simp

theorem toLower_toLower (c : Char) : c.toLower.toLower = c.toLower := by
  unfold Char.toLower
  by_cases h : c.toNat ≥ 65 ∧ c.toNat ≤ 90
  · rw [if_pos h]
    have hv : (c.toNat + 32).isValidChar := by
      apply Or.inl
      omega
    have ht : (Char.ofNat (c.toNat + 32)).toNat = c.toNat + 32 :=
      char_toNat_ofNat_valid hv
    rw [ht, if_neg (by omega)]
  · rw [if_neg h, if_neg h]

theorem mem_lowerL_fixed {l : List Char} {c : Char} (hc : c ∈ lowerL l) :
    c.toLower = c := by
  unfold lowerL at hc
  rcases List.mem_map.mp hc with ⟨d, _, rfl⟩
  exact toLower_toLower d

/-! ### Normal forms of the four extractor fields -/

theorem extract_title_eq (html : String) :
    (extract html).title =
      (if extractMetaContent (lowerL html.data) "og:title".data ≠ [] then
        String.mk (trimSpace (extractMetaContent (lowerL html.data) "og:title".data))
      else if extractTag html.data titlePat ≠ [] then
        String.mk (trimSpace (extractTag html.data titlePat))
      else "") := by
  simp only [extract, extractMetadata, emptyResponse]
  split_ifs <;> rfl

theorem extract_description_eq (html : String) :
    (extract html).description =
      (if extractMetaContent (lowerL html.data) "og:description".data ≠ [] then
        String.mk (trimSpace (extractMetaContent (lowerL html.data) "og:description".data))
      else if extractMetaContent (lowerL html.data) "description".data ≠ [] then
        String.mk (trimSpace (extractMetaContent (lowerL html.data) "description".data))
      else "") := by
  simp only [extract, extractMetadata, emptyResponse]
  split_ifs <;> rfl

theorem extract_image_eq (html : String) :
    (extract html).image =
      (if extractMetaContent (lowerL html.data) "og:image".data ≠ [] then
        String.mk (trimSpace (extractMetaContent (lowerL html.data) "og:image".data))
      else "") := by
  simp only [extract, extractMetadata, emptyResponse]
  split_ifs <;> rfl

theorem extract_siteName_eq (html : String) :
    (extract html).siteName =
      (if extractMetaContent (lowerL html.data) "og:site_name".data ≠ [] then
        String.mk (trimSpace (extractMetaContent (lowerL html.data) "og:site_name".data))
      else "") := by
  simp only [extract, extractMetadata, emptyResponse]
  split_ifs <;> rfl

/-- Lowercasing of a whole string, i.e. `strings.ToLower` on `String`. -/
def lowerStr (s : String) : String := String.mk (lowerL s.data)

theorem lowerL_fixed_of_mem_lower {html cap : List Char}
    (hsub : ∀ c ∈ cap, c ∈ lowerL html) :
    lowerL (trimSpace cap) = trimSpace cap := by
  unfold lowerL
  have hfix : ∀ c ∈ trimSpace cap, Char.toLower c = id c :=
    fun c hc => mem_lowerL_fixed (hsub c (trimSpace_mem c hc))
  rw [List.map_congr_left hfix, List.map_id]

/-! ### Markup documents used as concrete inputs -/

/-- A document carrying both the generic and the social description, plus both
title sources. -/
def docBoth : String :=
  "<title>The Title</title><meta name=\"description\" content=\"gen one\"><meta property=\"og:description\" content=\"social one\"><meta property=\"og:title\" content=\"OG Title\">"

/-- A document carrying only the generic description tag. -/
def docGenericOnly : String :=
  "<meta name=\"description\" content=\"only generic\">"

/-- A `property=`-marked description tag followed by a `name=`-marked one. -/
def docMarkerOrder : String :=
  "<meta property=\"description\" content=\"first in order\"><meta name=\"description\" content=\"second in order\">"

/-- Two `name=`-marked description tags with different values. -/
def docTwoName : String :=
  "<meta name=\"description\" content=\"first value\"><meta name=\"description\" content=\"second value\">"

/-- Two `property=`-marked og:image tags with different values. -/
def docTwoProp : String :=
  "<meta property=\"og:image\" content=\"img1.png\"><meta property=\"og:image\" content=\"img2.png\">"

/-- A document whose only title source is an og:title tag with mixed case. -/
def docCased : String :=
  "<meta property=\"og:title\" content=\"HeLLo World\"><title>KeepCase</title>"

/-! ### Claims about the Extractor -/

/-- C2 counterexample: in `docMarkerOrder` the description tag that comes
first in document order uses the `property=` marker and holds
`"first in order"`, yet Extract returns the value of the later `name=` tag —
first-match-wins does not hold across marker kinds. -/
theorem claim2_counterexample :
    (extract docMarkerOrder).description = "second in order" ∧
    (extract docMarkerOrder).description ≠ "first in order" := by
  constructor <;> decide

/-- C3 counterexample: matching of the document title element is
case-sensitive — an upper-case `<TITLE>` element is not matched at all, while
the lower-case form is. -/
theorem claim3_counterexample :
    (extract "<TITLE>Cased Title</TITLE>").title = "" ∧
    (extract "<title>Cased Title</title>").title = "Cased Title" := by
  constructor <;> decide

/-- C3 amended: meta-tag matching is case-insensitive — the meta-derived
fields depend only on the lowercased document — and supports both attribute
orders and both quote characters; the document title element, however, is
matched case-sensitively (only lower-case `<title>` markup). -/
theorem claim3_amended_meta_case_insensitive :
    (∀ h1 h2 : String, lowerL h1.data = lowerL h2.data →
      (extract h1).description = (extract h2).description ∧
      (extract h1).image = (extract h2).image ∧
      (extract h1).siteName = (extract h2).siteName) ∧
    (extract "<META NAME=\"DESCRIPTION\" CONTENT=\"Shouted\">").description = "shouted" ∧
    (extract "<meta content='rev order' name='description'>").description = "rev order" ∧
    (extract "<meta property='og:image' content='pic.png'>").image = "pic.png" := by
  constructor
  · intro h1 h2 hl
    refine ⟨?_, ?_, ?_⟩
    · rw [extract_description_eq, extract_description_eq, hl]
    · rw [extract_image_eq, extract_image_eq, hl]
    · rw [extract_siteName_eq, extract_siteName_eq, hl]
  · exact ⟨by decide, by decide, by decide⟩

/-- Witness for the amended C3: two documents differing only in case have the
same lowercasing, hence the same meta-derived description. -/
theorem claim3_witness :
    lowerL "<META NAME=\"DESCRIPTION\" CONTENT=\"x\">".data =
      lowerL "<meta name=\"description\" content=\"X\">".data ∧
    (extract "<META NAME=\"DESCRIPTION\" CONTENT=\"x\">").description =
      (extract "<meta name=\"description\" content=\"X\">").description :=
  ⟨by decide,
   (claim3_amended_meta_case_insensitive.1
      "<META NAME=\"DESCRIPTION\" CONTENT=\"x\">"
      "<meta name=\"description\" content=\"X\">" (by decide)).1⟩

/-- C7: every field value extracted via a meta tag is returned lowercased,
because meta matching is performed on a lowercased copy of the document and
the content is captured from that copy; only the document-title path
preserves the original character case. -/
theorem claim7_meta_fields_lowercased (html : String) :
    lowerStr (extract html).description = (extract html).description ∧
    lowerStr (extract html).image = (extract html).image ∧
    lowerStr (extract html).siteName = (extract html).siteName ∧
    (extractMetaContent (lowerL html.data) "og:title".data ≠ [] →
      lowerStr (extract html).title = (extract html).title) := by
  refine ⟨?_, ?_, ?_, ?_⟩
  · rw [extract_description_eq]
    split_ifs with h1 h2
    · exact congrArg String.mk (lowerL_fixed_of_mem_lower (fun c hc => extractMetaContent_mem c hc))
    · exact congrArg String.mk (lowerL_fixed_of_mem_lower (fun c hc => extractMetaContent_mem c hc))
    · rfl
  · rw [extract_image_eq]
    split_ifs with h1
    · exact congrArg String.mk (lowerL_fixed_of_mem_lower (fun c hc => extractMetaContent_mem c hc))
    · rfl
  · rw [extract_siteName_eq]
    split_ifs with h1
    · exact congrArg String.mk (lowerL_fixed_of_mem_lower (fun c hc => extractMetaContent_mem c hc))
    · rfl
  · intro h1
    rw [extract_title_eq, if_pos h1]
    exact congrArg String.mk (lowerL_fixed_of_mem_lower (fun c hc => extractMetaContent_mem c hc))

/-- Witness for C7: the og:title value `"HeLLo World"` comes back lowercased,
while a document-title value keeps its case. -/
theorem claim7_witness :
    (extractMetaContent (lowerL docCased.data) "og:title".data ≠ []) ∧
    lowerStr (extract docCased).title = (extract docCased).title ∧
    (extract docCased).title = "hello world" ∧
    (extract "<title>KeepCase</title>").title = "KeepCase" :=
  ⟨by decide, (claim7_meta_fields_lowercased docCased).2.2.2 (by decide),
   by decide, by decide⟩

/-! ### Evaluation lemmas for the backtracking matcher

These characterize how a greedy star settles on its consumption: the longest
candidate is tried first, so a star consumes exactly `A` when every longer
candidate makes the rest of the pattern fail. -/

theorem chopLit_pre : ∀ (p t : List Char), chopLit p (p ++ t) = some t := by
  intro p
  induction p with
  | nil => intro t; rfl
  | cons c cs ih => intro t; rw [List.cons_append, chopLit, if_pos rfl, ih]

theorem backS_done (k : List Char → Option (List Char)) (rcon rest cap : List Char)
    (h : k rest = some cap) : backS k rcon rest = some cap := by
  cases rcon with
  | nil => rw [backS, h]
  | cons c rcon2 => rw [backS, h]

theorem backS_pop (k : List Char → Option (List Char)) (c : Char) (rcon rest : List Char)
    (h : k rest = none) : backS k (c :: rcon) rest = backS k rcon (c :: rest) := by
  rw [backS, h]

theorem backG_done (k : List Char → Option (List Char)) (rcon rest : List Char)
    {res : List Char} (h : k rest = some res) : backG k rcon rest = some rcon.reverse := by
  cases rcon with
  | nil => rw [backG, h]
  | cons c rcon2 => rw [backG, h]

/-- Pop a whole block `w` through `backS` when the tail of the pattern fails
at every split of `w` that leaves a proper suffix. -/
theorem backS_pop_many (k : List Char → Option (List Char)) :
    ∀ (w rcon rest : List Char),
    (∀ w1 w2, w = w1 ++ w2 → w1 ≠ [] → k (w2 ++ rest) = none) →
    backS k (w.reverse ++ rcon) rest = backS k rcon (w ++ rest) := by
  intro w
  induction w using List.reverseRecOn with
  | nil => intro rcon rest _; rfl
  | append_singleton w2 c ih =>
    intro rcon rest hfail
    rw [List.reverse_append, List.reverse_singleton, List.singleton_append,
      List.cons_append]
    rw [backS_pop k c (w2.reverse ++ rcon) rest
      (by simpa using hfail (w2 ++ [c]) [] (by simp) (by simp))]
    have step := ih rcon (c :: rest) (fun w1 w3 hw h1 => by
      have hx := hfail w1 (w3 ++ [c]) (by rw [hw]; simp) h1
      simpa using hx)
    rw [step]
    simp

theorem dropWhile_eq_drop_len_takeWhile {p : Char → Bool} : ∀ (l : List Char),
    l.dropWhile p = l.drop (l.takeWhile p).length := by
  intro l
  induction l with
  | nil => rfl
  | cons c cs ih =>
    by_cases h : p c
    · rw [List.dropWhile_cons_of_pos h, List.takeWhile_cons_of_pos h]
      simpa using ih
    · rw [List.dropWhile_cons_of_neg h, List.takeWhile_cons_of_neg h]
      rfl

theorem takeWhile_append_all {p : Char → Bool} : ∀ {xs ys : List Char},
    (∀ c ∈ xs, p c = true) → (xs ++ ys).takeWhile p = xs ++ ys.takeWhile p := by
  intro xs
  induction xs with
  | nil => intro ys _; rfl
  | cons c cs ih =>
    intro ys h
    rw [List.cons_append, List.takeWhile_cons_of_pos (h c (List.mem_cons_self _ _)),
      ih (fun d hd => h d (List.mem_cons_of_mem _ hd))]
    simp

/-- A greedy star consumes exactly `A` when the rest of the pattern succeeds
right after `A` and fails after every longer consumption. -/
theorem star_eval (excl : List Char) (es : List Elem) (A B cap : List Char)
    (hA : ∀ c ∈ A, excl.contains c = false)
    (hsucc : matchElems es B = some cap)
    (hfail : ∀ A2 B2, B = A2 ++ B2 → A2 ≠ [] → (∀ c ∈ A2, excl.contains c = false) →
      matchElems es B2 = none) :
    matchElems (Elem.star excl :: es) (A ++ B) = some cap := by
  have hpred : ∀ c ∈ A, (fun c => !(excl.contains c)) c = true := by
    intro c hc
    simp only [Bool.not_eq_true']
    exact hA c hc
  have hrun : runOf excl (A ++ B) = A ++ B.takeWhile (fun c => !(excl.contains c)) := by
    unfold runOf
    exact takeWhile_append_all hpred
  have hW : ∀ c ∈ B.takeWhile (fun c => !(excl.contains c)), excl.contains c = false := by
    intro c hc
    have hx := List.mem_takeWhile_imp hc
    simp only [Bool.not_eq_true'] at hx
    exact hx
  have hsplit : B.takeWhile (fun c => !(excl.contains c)) ++
      B.drop (B.takeWhile (fun c => !(excl.contains c))).length = B := by
    rw [← dropWhile_eq_drop_len_takeWhile]
    exact List.takeWhile_append_dropWhile _ _
  rw [matchElems_star, hrun]
  have hdrop : (A ++ B).drop (A ++ B.takeWhile (fun c => !(excl.contains c))).length
      = B.drop (B.takeWhile (fun c => !(excl.contains c))).length := by
    rw [List.length_append, List.drop_append]
  rw [hdrop, List.reverse_append]
  rw [backS_pop_many (fun t => matchElems es t)
    (B.takeWhile (fun c => !(excl.contains c))) A.reverse
    (B.drop (B.takeWhile (fun c => !(excl.contains c))).length)
    (fun w1 w2 hw h1 => by
      apply hfail w1 (w2 ++ B.drop (B.takeWhile (fun c => !(excl.contains c))).length)
      · conv_lhs => rw [← hsplit]
        rw [hw, List.append_assoc]
      · exact h1
      · intro c hc
        exact hW c (by rw [hw]; exact List.mem_append_left _ hc))]
  rw [hsplit]
  exact backS_done _ _ _ _ hsucc

/-- A greedy capture group takes the whole maximal run on its first try when
the rest of the pattern succeeds immediately after it. -/
theorem grp_eval (excl : List Char) (es : List Elem) (A B : List Char)
    (hA : ∀ c ∈ A, excl.contains c = false)
    (hstop : B.takeWhile (fun c => !(excl.contains c)) = [])
    (hsucc : (matchElems es B).isSome) :
    matchElems (Elem.grp excl :: es) (A ++ B) = some A := by
  have hpred : ∀ c ∈ A, (fun c => !(excl.contains c)) c = true := by
    intro c hc
    simp only [Bool.not_eq_true']
    exact hA c hc
  have hrun : runOf excl (A ++ B) = A := by
    unfold runOf
    rw [takeWhile_append_all hpred, hstop, List.append_nil]
  rw [matchElems_grp, hrun]
  have hdrop : (A ++ B).drop A.length = B := by simp
  rw [hdrop]
  obtain ⟨res, hres⟩ := Option.isSome_iff_exists.mp hsucc
  rw [backG_done _ _ _ hres, List.reverse_reverse]

theorem findCap_of_match {es : List Elem} {s cap : List Char}
    (h : matchElems es s = some cap) : findCap es s = some cap := by
  cases s with
  | nil => rw [findCap_nil]; exact h
  | cons c rest => rw [findCap_cons, h]

/-! ### A successful match must see every literal of the pattern -/

theorem backS_some_exists (k : List Char → Option (List Char)) :
    ∀ (rcon rest cap : List Char), backS k rcon rest = some cap →
      ∃ t, k t = some cap ∧ ∀ c ∈ t, c ∈ rcon ∨ c ∈ rest := by
  intro rcon
  induction rcon with
  | nil =>
    intro rest cap h
    rw [backS] at h
    cases hk : k rest with
    | some c2 => rw [hk] at h; simp at h; subst h; exact ⟨rest, hk, fun c hc => Or.inr hc⟩
    | none => rw [hk] at h; simp at h
  | cons a rcon2 ih =>
    intro rest cap h
    rw [backS] at h
    cases hk : k rest with
    | some c2 => rw [hk] at h; simp at h; subst h; exact ⟨rest, hk, fun c hc => Or.inr hc⟩
    | none =>
      rw [hk] at h
      simp only at h
      obtain ⟨t, ht, hsub⟩ := ih (a :: rest) cap h
      refine ⟨t, ht, fun c hc => ?_⟩
      rcases hsub c hc with h1 | h2
      · exact Or.inl (List.mem_cons_of_mem _ h1)
      · rcases List.mem_cons.mp h2 with rfl | h3
        · exact Or.inl (List.mem_cons_self _ _)
        · exact Or.inr h3

theorem backG_some_exists (k : List Char → Option (List Char)) :
    ∀ (rcon rest cap : List Char), backG k rcon rest = some cap →
      ∃ t res, k t = some res ∧ ∀ c ∈ t, c ∈ rcon ∨ c ∈ rest := by
  intro rcon
  induction rcon with
  | nil =>
    intro rest cap h
    rw [backG] at h
    cases hk : k rest with
    | some c2 => exact ⟨rest, c2, hk, fun c hc => Or.inr hc⟩
    | none => rw [hk] at h; simp at h
  | cons a rcon2 ih =>
    intro rest cap h
    rw [backG] at h
    cases hk : k rest with
    | some c2 => exact ⟨rest, c2, hk, fun c hc => Or.inr hc⟩
    | none =>
      rw [hk] at h
      simp only at h
      obtain ⟨t, res, ht, hsub⟩ := ih (a :: rest) cap h
      refine ⟨t, res, ht, fun c hc => ?_⟩
      rcases hsub c hc with h1 | h2
      · exact Or.inl (List.mem_cons_of_mem _ h1)
      · rcases List.mem_cons.mp h2 with rfl | h3
        · exact Or.inl (List.mem_cons_self _ _)
        · exact Or.inr h3

theorem matchElems_lit_mem : ∀ (es : List Elem) (s cap : List Char),
    matchElems es s = some cap →
    ∀ p, Elem.lit p ∈ es → ∀ c ∈ p, c ∈ s := by
  intro es
  induction es with
  | nil =>
    intro s cap _ p hp
    simp at hp
  | cons e es ih =>
    intro s cap h p hp c hc
    rcases List.mem_cons.mp hp with rfl | hp2
    · rw [matchElems_lit] at h
      cases hcl : chopLit p s with
      | some s2 =>
        rw [chopLit_eq_some hcl]
        exact List.mem_append_left _ hc
      | none => rw [hcl] at h; simp at h
    · cases e with
      | lit q =>
        rw [matchElems_lit] at h
        cases hcl : chopLit q s with
        | some s2 =>
          rw [hcl] at h
          rw [chopLit_eq_some hcl]
          exact List.mem_append_right _ (ih s2 cap h p hp2 c hc)
        | none => rw [hcl] at h; simp at h
      | one set =>
        rw [matchElems_one] at h
        cases s with
        | nil => simp at h
        | cons a cs =>
          simp only [] at h
          by_cases hset : set.contains a
          · rw [if_pos hset] at h
            exact List.mem_cons_of_mem _ (ih cs cap h p hp2 c hc)
          · rw [if_neg hset] at h; simp at h
      | star excl =>
        rw [matchElems_star] at h
        obtain ⟨t, ht, hsub⟩ := backS_some_exists _ _ _ _ h
        rcases hsub c (ih t cap ht p hp2 c hc) with h1 | h2
        · exact (List.takeWhile_sublist _).mem (List.mem_reverse.mp h1)
        · exact (List.drop_sublist _ _).mem h2
      | grp excl =>
        rw [matchElems_grp] at h
        obtain ⟨t, res, ht, hsub⟩ := backG_some_exists _ _ _ _ h
        rcases hsub c (ih t res ht p hp2 c hc) with h1 | h2
        · exact (List.takeWhile_sublist _).mem (List.mem_reverse.mp h1)
        · exact (List.drop_sublist _ _).mem h2

theorem findCap_lit_mem : ∀ (es : List Elem) (s cap : List Char),
    findCap es s = some cap → ∀ p, Elem.lit p ∈ es → ∀ c ∈ p, c ∈ s := by
  intro es s
  induction s with
  | nil =>
    intro cap h p hp c hc
    rw [findCap_nil] at h
    exact matchElems_lit_mem es [] cap h p hp c hc
  | cons a rest ih =>
    intro cap h p hp c hc
    rw [findCap_cons] at h
    cases hm : matchElems es (a :: rest) with
    | some cap2 =>
      rw [hm] at h; simp at h; subst h
      exact matchElems_lit_mem es (a :: rest) _ hm p hp c hc
    | none =>
      rw [hm] at h
      simp only at h
      exact List.mem_cons_of_mem _ (ih cap h p hp c hc)

theorem extractTag_empty_of_lit_not_mem {s p : List Char} {pat : List Elem} {c : Char}
    (hlit : Elem.lit p ∈ pat) (hc : c ∈ p) (hs : c ∉ s) : extractTag s pat = [] := by
  unfold extractTag
  cases hf : findCap pat s with
  | none => rfl
  | some cap => exact absurd (findCap_lit_mem pat s cap hf p hlit c hc) hs

/-! ### The name-marked description pattern matches a well-formed tag at its head -/

/-- Lower-case letters, the alphabet of the generic tag values considered in
the first-match-wins analysis. -/
def lcLetter (c : Char) : Bool := 'a' ≤ c ∧ c ≤ 'z'

/-- A `name=`-marked, double-quoted description tag. -/
def nameDescTag (v : List Char) : List Char :=
  "<meta name=\"description\" content=\"".data ++ v ++ [dq, '>']

theorem lcLetter_ne {c : Char} (h : lcLetter c = true) (d : Char)
    (hd : lcLetter d = false) : c ≠ d := by
  intro he
  rw [he, hd] at h
  cases h

/-- A literal containing a non-letter but no double quote cannot match at the
start of letters followed by a double quote. -/
theorem chopLit_letters_fail : ∀ (p w rest : List Char),
    (∀ c ∈ p, c ≠ dq) → (∃ c ∈ p, lcLetter c = false) →
    (∀ c ∈ w, lcLetter c = true) → chopLit p (w ++ dq :: rest) = none := by
  intro p w
  induction w generalizing p with
  | nil =>
    intro rest hq hnl _
    cases p with
    | nil =>
      obtain ⟨c, hc, _⟩ := hnl
      simp at hc
    | cons pc ps =>
      rw [List.nil_append, chopLit, if_neg (hq pc (List.mem_cons_self _ _))]
  | cons c w2 ih =>
    intro rest hq hnl hw
    cases p with
    | nil =>
      obtain ⟨x, hx, _⟩ := hnl
      simp at hx
    | cons pc ps =>
      rw [List.cons_append, chopLit]
      by_cases hpc : pc = c
      · rw [if_pos hpc]
        apply ih ps rest (fun d hd => hq d (List.mem_cons_of_mem _ hd)) ?_
          (fun d hd => hw d (List.mem_cons_of_mem _ hd))
        obtain ⟨x, hx, hxl⟩ := hnl
        rcases List.mem_cons.mp hx with rfl | hx2
        · exfalso
          have hcl := hw c (List.mem_cons_self _ _)
          rw [hpc, hcl] at hxl
          cases hxl
        · exact ⟨x, hx2, hxl⟩
      · rw [if_neg hpc]

theorem chop_fail_content (v R A2 B2 : List Char) (hv : ∀ c ∈ v, lcLetter c = true)
    (heq : "content=\"".data ++ (v ++ (dq :: '>' :: R)) = A2 ++ B2)
    (hne : A2 ≠ [])
    (hfree : ∀ c ∈ A2, (['>'] : List Char).contains c = false) :
    chopLit "content=".data B2 = none := by
  rcases List.append_eq_append_iff.mp heq with ⟨a2, ha, hb⟩ | ⟨c2, hc, hd⟩
  · -- A2 = C9 ++ a2 and v ++ (dq :: '>' :: R) = a2 ++ B2
    rcases List.append_eq_append_iff.mp hb with ⟨b2, hb1, hb2⟩ | ⟨d2, hd1, hd2⟩
    · -- a2 = v ++ b2 and dq :: '>' :: R = b2 ++ B2
      cases b2 with
      | nil =>
        simp at hb2
        rw [← hb2]
        rfl
      | cons y b3 =>
        rw [List.cons_append] at hb2
        injection hb2 with hy hb3
        subst hy
        cases b3 with
        | nil =>
          simp at hb3
          rw [← hb3]
          rfl
        | cons z b4 =>
          rw [List.cons_append] at hb3
          injection hb3 with hz hb4
          exfalso
          have hgt : '>' ∈ A2 := by
            rw [ha, hb1, hz]
            exact List.mem_append_right _ (List.mem_append_right _
              (List.mem_cons_of_mem _ (List.mem_cons_self _ _)))
          have := hfree '>' hgt
          simp at this
    · -- v = a2 ++ d2 and B2 = d2 ++ (dq :: '>' :: R)
      rw [hd2]
      exact chopLit_letters_fail "content=".data d2 ('>' :: R) (by decide)
        ⟨'=', by decide, by decide⟩
        (fun c hc => hv c (by rw [hd1]; exact List.mem_append_right _ hc))
  · -- C9 = A2 ++ c2 and B2 = c2 ++ (v ++ (dq :: '>' :: R))
    have hlen : A2.length + c2.length = 9 := by
      have := congrArg List.length hc
      simpa using this.symm
    have hc2 : c2 = ("content=\"".data).drop A2.length := by
      rw [hc, List.drop_left]
    have h1 : 1 ≤ A2.length := List.length_pos.mpr hne
    have h9 : A2.length ≤ 9 := by omega
    obtain ⟨j, hj⟩ : ∃ j, A2.length = j := ⟨A2.length, rfl⟩
    rw [hj] at hc2 h1 h9
    rw [hd, hc2]
    interval_cases j
    · rfl
    · rfl
    · rfl
    · rfl
    · rfl
    · rfl
    · rfl
    · rfl
    · simp only [List.drop_length, List.nil_append]
      exact chopLit_letters_fail "content=".data v ('>' :: R) (by decide)
        ⟨'=', by decide, by decide⟩ hv

theorem chop_fail_name (v R A2 B2 : List Char) (hv : ∀ c ∈ v, lcLetter c = true)
    (heq : "name=\"description\" content=\"".data ++ (v ++ (dq :: '>' :: R)) = A2 ++ B2)
    (hne : A2 ≠ [])
    (hfree : ∀ c ∈ A2, (['>'] : List Char).contains c = false) :
    chopLit "name=".data B2 = none := by
  rcases List.append_eq_append_iff.mp heq with ⟨a2, ha, hb⟩ | ⟨c2, hc, hd⟩
  · rcases List.append_eq_append_iff.mp hb with ⟨b2, hb1, hb2⟩ | ⟨d2, hd1, hd2⟩
    · cases b2 with
      | nil =>
        simp at hb2
        rw [← hb2]
        rfl
      | cons y b3 =>
        rw [List.cons_append] at hb2
        injection hb2 with hy hb3
        subst hy
        cases b3 with
        | nil =>
          simp at hb3
          rw [← hb3]
          rfl
        | cons z b4 =>
          rw [List.cons_append] at hb3
          injection hb3 with hz hb4
          exfalso
          have hgt : '>' ∈ A2 := by
            rw [ha, hb1, hz]
            exact List.mem_append_right _ (List.mem_append_right _
              (List.mem_cons_of_mem _ (List.mem_cons_self _ _)))
          have := hfree '>' hgt
          simp at this
    · rw [hd2]
      exact chopLit_letters_fail "name=".data d2 ('>' :: R) (by decide)
        ⟨'=', by decide, by decide⟩
        (fun c hc => hv c (by rw [hd1]; exact List.mem_append_right _ hc))
  · have hlen : A2.length + c2.length = 28 := by
      have := congrArg List.length hc
      simpa using this.symm
    have hc2 : c2 = ("name=\"description\" content=\"".data).drop A2.length := by
      rw [hc, List.drop_left]
    have h1 : 1 ≤ A2.length := List.length_pos.mpr hne
    have h9 : A2.length ≤ 28 := by omega
    obtain ⟨j, hj⟩ : ∃ j, A2.length = j := ⟨A2.length, rfl⟩
    rw [hj] at hc2 h1 h9
    rw [hd, hc2]
    interval_cases j
    · rfl
    · rfl
    · rfl
    · rfl
    · rfl
    · rfl
    · rfl
    · rfl
    · rfl
    · rfl
    · rfl
    · rfl
    · rfl
    · rfl
    · rfl
    · rfl
    · rfl
    · rfl
    · rfl
    · rfl
    · rfl
    · rfl
    · rfl
    · rfl
    · rfl
    · rfl
    · rfl
    · simp only [List.drop_length, List.nil_append]
      exact chopLit_letters_fail "name=".data v ('>' :: R) (by decide)
        ⟨'=', by decide, by decide⟩ hv

/-- The `name=` description pattern matches a well-formed double-quoted tag at
the head of the input, capturing exactly the attribute value. -/
theorem matchElems_nameDesc (v R : List Char) (hv : ∀ c ∈ v, lcLetter c = true) :
    matchElems (metaNamePat "description".data)
      ("<meta name=\"description\" content=\"".data ++ (v ++ (dq :: '>' :: R))) = some v := by
  have hvq : ∀ c ∈ v, qcls.contains c = false := by
    intro c hc
    have h1 : c ≠ dq := lcLetter_ne (hv c hc) dq (by decide)
    have h2 : c ≠ sq := lcLetter_ne (hv c hc) sq (by decide)
    simp [qcls, h1, h2]
  have hsp : ∀ c ∈ ([' '] : List Char), (['>'] : List Char).contains c = false := by
    intro c hc
    rw [List.mem_singleton] at hc
    subst hc
    decide
  have hA : matchElems [Elem.one qcls] (dq :: '>' :: R) = some [] := by
    rw [matchElems_one]
    simp only []
    rw [if_pos (by decide), matchElems_nil]
  have hB : matchElems [Elem.grp qcls, Elem.one qcls] (v ++ (dq :: '>' :: R)) = some v := by
    apply grp_eval qcls [Elem.one qcls] v (dq :: '>' :: R) hvq
    · rw [List.takeWhile_cons_of_neg]
      decide
    · rw [hA]
      rfl
  have hC : matchElems [Elem.one qcls, Elem.grp qcls, Elem.one qcls]
      (dq :: (v ++ (dq :: '>' :: R))) = some v := by
    rw [matchElems_one]
    simp only []
    rw [if_pos (by decide)]
    exact hB
  have hD : matchElems [Elem.lit "content=".data, Elem.one qcls, Elem.grp qcls, Elem.one qcls]
      ("content=".data ++ (dq :: (v ++ (dq :: '>' :: R)))) = some v := by
    rw [matchElems_lit, chopLit_pre]
    exact hC
  have hstar2 : matchElems
      (Elem.star ['>'] :: [Elem.lit "content=".data, Elem.one qcls, Elem.grp qcls, Elem.one qcls])
      (' ' :: ("content=".data ++ (dq :: (v ++ (dq :: '>' :: R))))) = some v := by
    exact star_eval ['>'] _ [' '] _ v hsp hD (fun A2 B2 heq hne hfree => by
      rw [matchElems_lit, chop_fail_content v R A2 B2 hv heq hne hfree])
  have hE : matchElems
      [Elem.lit "name=".data, Elem.one qcls, Elem.lit "description".data, Elem.one qcls,
       Elem.star ['>'], Elem.lit "content=".data, Elem.one qcls, Elem.grp qcls, Elem.one qcls]
      ("name=".data ++ (dq :: ("description".data ++ (dq :: (' ' ::
        ("content=".data ++ (dq :: (v ++ (dq :: '>' :: R))))))))) = some v := by
    rw [matchElems_lit, chopLit_pre]
    dsimp only
    rw [matchElems_one]
    simp only []
    rw [if_pos (by decide)]
    rw [matchElems_lit, chopLit_pre]
    dsimp only
    rw [matchElems_one]
    simp only []
    rw [if_pos (by decide)]
    exact hstar2
  have hE2 : matchElems
      [Elem.lit "name=".data, Elem.one qcls, Elem.lit "description".data, Elem.one qcls,
       Elem.star ['>'], Elem.lit "content=".data, Elem.one qcls, Elem.grp qcls, Elem.one qcls]
      ("name=\"description\" content=\"".data ++ (v ++ (dq :: '>' :: R))) = some v := hE
  have hstar1 : matchElems
      (Elem.star ['>'] ::
        [Elem.lit "name=".data, Elem.one qcls, Elem.lit "description".data, Elem.one qcls,
         Elem.star ['>'], Elem.lit "content=".data, Elem.one qcls, Elem.grp qcls, Elem.one qcls])
      (' ' :: ("name=\"description\" content=\"".data ++ (v ++ (dq :: '>' :: R)))) = some v := by
    exact star_eval ['>'] _ [' '] _ v hsp hE2 (fun A2 B2 heq hne hfree => by
      rw [matchElems_lit, chop_fail_name v R A2 B2 hv heq hne hfree])
  show matchElems
      (Elem.lit "<meta".data ::
        [Elem.star ['>'], Elem.lit "name=".data, Elem.one qcls, Elem.lit "description".data,
         Elem.one qcls, Elem.star ['>'], Elem.lit "content=".data, Elem.one qcls,
         Elem.grp qcls, Elem.one qcls])
      ("<meta".data ++ (' ' :: ("name=\"description\" content=\"".data ++ (v ++ (dq :: '>' :: R)))))
      = some v
  rw [matchElems_lit, chopLit_pre]
  exact hstar1

/-! ### First-match-wins for two name-marked description tags, universally -/

theorem nameDescTag_append (v X : List Char) :
    nameDescTag v ++ X =
      "<meta name=\"description\" content=\"".data ++ (v ++ (dq :: '>' :: X)) := by
  simp [nameDescTag, List.append_assoc]

theorem mem_nameDescTag {c : Char} {v : List Char} (h : c ∈ nameDescTag v) :
    c ∈ "<meta name=\"description\" content=\"".data ∨ c ∈ v ∨ c = dq ∨ c = '>' := by
  unfold nameDescTag at h
  rcases List.mem_append.mp h with h1 | h2
  · rcases List.mem_append.mp h1 with h3 | h4
    · exact Or.inl h3
    · exact Or.inr (Or.inl h4)
  · rcases List.mem_cons.mp h2 with rfl | h5
    · exact Or.inr (Or.inr (Or.inl rfl))
    · rcases List.mem_singleton.mp h5 with rfl
      exact Or.inr (Or.inr (Or.inr rfl))

theorem char_toNat_le_of_le {a b : Char} (h : a ≤ b) : a.toNat ≤ b.toNat := by
  rw [Char.le_def] at h
  exact h

theorem lcLetter_toLower_fixed {c : Char} (h : lcLetter c = true) :
    Char.toLower c = c := by
  simp only [lcLetter, decide_eq_true_eq] at h
  have h1 := char_toNat_le_of_le h.1
  have e1 : Char.toNat 'a' = 97 := rfl
  rw [e1] at h1
  unfold Char.toLower
  rw [if_neg (by omega)]

theorem lowerL_eq_self {l : List Char} (h : ∀ c ∈ l, Char.toLower c = c) :
    lowerL l = l := by
  unfold lowerL
  have hfix : ∀ c ∈ l, Char.toLower c = id c := h
  rw [List.map_congr_left hfix, List.map_id]

theorem dropWhile_eq_self_all {p : Char → Bool} {l : List Char}
    (h : ∀ c ∈ l, p c = false) : l.dropWhile p = l := by
  cases l with
  | nil => rfl
  | cons c cs =>
    rw [List.dropWhile_cons_of_neg]
    rw [h c (List.mem_cons_self _ _)]
    simp

theorem trimSpace_eq_self {l : List Char} (h : ∀ c ∈ l, isSpaceCh c = false) :
    trimSpace l = l := by
  unfold trimSpace
  rw [dropWhile_eq_self_all h]
  rw [dropWhile_eq_self_all (fun c hc => h c (List.mem_reverse.mp hc))]
  exact List.reverse_reverse l

theorem lcLetter_not_space {c : Char} (h : lcLetter c = true) : isSpaceCh c = false := by
  have h1 : c ≠ ' ' := lcLetter_ne h ' ' (by decide)
  have h2 : c ≠ Char.ofNat 9 := lcLetter_ne h (Char.ofNat 9) (by decide)
  have h3 : c ≠ Char.ofNat 10 := lcLetter_ne h (Char.ofNat 10) (by decide)
  have h4 : c ≠ Char.ofNat 11 := lcLetter_ne h (Char.ofNat 11) (by decide)
  have h5 : c ≠ Char.ofNat 12 := lcLetter_ne h (Char.ofNat 12) (by decide)
  have h6 : c ≠ Char.ofNat 13 := lcLetter_ne h (Char.ofNat 13) (by decide)
  simp [isSpaceCh, h1, h2, h3, h4, h5, h6]

theorem extractMetaContent_empty_colon {s : List Char} (hs : ':' ∉ s) :
    extractMetaContent s "og:description".data = [] := by
  simp only [extractMetaContent]
  rw [@extractTag_empty_of_lit_not_mem s "og:description".data
      (metaNamePat "og:description".data) ':' (by decide) (by decide) hs]
  rw [@extractTag_empty_of_lit_not_mem s "og:description".data
      (metaPropPat "og:description".data) ':' (by decide) (by decide) hs]
  rw [@extractTag_empty_of_lit_not_mem s "og:description".data
      (metaNameRevPat "og:description".data) ':' (by decide) (by decide) hs]
  rw [@extractTag_empty_of_lit_not_mem s "og:description".data
      (metaPropRevPat "og:description".data) ':' (by decide) (by decide) hs]
  simp

/-- On a document made of a generic `name=`-marked description tag followed by
any suffix drawn from the tag alphabet, the Extractor's description is the
tag's value. -/
theorem extract_nameDesc_first (v R : List Char)
    (hv : ∀ c ∈ v, lcLetter c = true) (hne : v ≠ [])
    (hR : ∀ c ∈ R, c ∈ "<meta name=\"description\" content=\"".data ∨
      (lcLetter c = true) ∨ c = dq ∨ c = '>') :
    (extract (String.mk (nameDescTag v ++ R))).description = String.mk v := by
  have hmem : ∀ c ∈ nameDescTag v ++ R,
      c ∈ "<meta name=\"description\" content=\"".data ∨ (lcLetter c = true) ∨
        c = dq ∨ c = '>' := by
    intro c hc
    rcases List.mem_append.mp hc with h1 | h2
    · rcases mem_nameDescTag h1 with h3 | h3 | h3 | h3
      · exact Or.inl h3
      · exact Or.inr (Or.inl (hv c h3))
      · exact Or.inr (Or.inr (Or.inl h3))
      · exact Or.inr (Or.inr (Or.inr h3))
    · exact hR c h2
  have hlower : lowerL (nameDescTag v ++ R) = nameDescTag v ++ R := by
    have hconc : ∀ c ∈ "<meta name=\"description\" content=\"".data, Char.toLower c = c := by
      decide
    apply lowerL_eq_self
    intro c hc
    rcases hmem c hc with h1 | h1 | rfl | rfl
    · exact hconc c h1
    · exact lcLetter_toLower_fixed h1
    · decide
    · decide
  have hnocolon : ':' ∉ nameDescTag v ++ R := by
    intro hc
    rcases hmem ':' hc with h1 | h1 | h1 | h1
    · revert h1; decide
    · revert h1; decide
    · revert h1; decide
    · revert h1; decide
  have hfind : findCap (metaNamePat "description".data)
      (nameDescTag v ++ R) = some v := by
    rw [nameDescTag_append]
    exact findCap_of_match (matchElems_nameDesc v R hv)
  have hgen : extractMetaContent (nameDescTag v ++ R) "description".data = v := by
    have htag : extractTag (nameDescTag v ++ R)
        (metaNamePat "description".data) = v := by
      unfold extractTag
      rw [hfind]
    simp only [extractMetaContent]
    rw [htag, if_pos hne]
  have hdata : (String.mk (nameDescTag v ++ R)).data =
      nameDescTag v ++ R := rfl
  rw [extract_description_eq, hdata, hlower,
    extractMetaContent_empty_colon hnocolon]
  rw [if_neg (by simp), hgen, if_pos hne]
  congr 1
  apply trimSpace_eq_self
  intro c hc
  exact lcLetter_not_space (hv c hc)

/-- On a document made of two generic `name=`-marked description tags, the
Extractor's description is the first tag's value. -/
theorem extract_firstOfTwo_nameDesc (v1 v2 : List Char)
    (hv1 : ∀ c ∈ v1, lcLetter c = true) (h1ne : v1 ≠ [])
    (hv2 : ∀ c ∈ v2, lcLetter c = true) :
    (extract (String.mk (nameDescTag v1 ++ nameDescTag v2))).description =
      String.mk v1 := by
  apply extract_nameDesc_first v1 (nameDescTag v2) hv1 h1ne
  intro c hc
  rcases mem_nameDescTag hc with h3 | h3 | h3 | h3
  · exact Or.inl h3
  · exact Or.inr (Or.inl (hv2 c h3))
  · exact Or.inr (Or.inr (Or.inl h3))
  · exact Or.inr (Or.inr (Or.inr h3))

/-- On a document consisting of exactly one generic `name=`-marked description
tag, the Extractor's description is that tag's value. -/
theorem extract_nameDesc_only (v : List Char)
    (hv : ∀ c ∈ v, lcLetter c = true) (hne : v ≠ []) :
    (extract (String.mk (nameDescTag v))).description = String.mk v := by
  have h := extract_nameDesc_first v [] hv hne (by intro c hc; cases hc)
  rwa [List.append_nil] at h

/-- C1: For every markup input, the Extractor resolves title and description
with social-metadata override precedence: the document title element is tried
first and a non-empty og:title value, when present, overrides it (applied
second, unconditionally); a generic description meta tag is tried first and a
non-empty og:description value, when present, overrides it; given only the
generic source for a field, the generic value is returned — in particular, on
a document consisting of a single generic description tag with any non-empty
lower-case-letter value, Extract's description equals that value. -/
theorem claim1_override_precedence (html : String) :
    ((extractMetaContent (lowerL html.data) "og:title".data ≠ [] →
      (extract html).title =
        String.mk (trimSpace (extractMetaContent (lowerL html.data) "og:title".data))) ∧
     (extractMetaContent (lowerL html.data) "og:title".data = [] →
      extractTag html.data titlePat ≠ [] →
      (extract html).title = String.mk (trimSpace (extractTag html.data titlePat)))) ∧
    ((extractMetaContent (lowerL html.data) "og:description".data ≠ [] →
      (extract html).description =
        String.mk (trimSpace (extractMetaContent (lowerL html.data) "og:description".data))) ∧
     (extractMetaContent (lowerL html.data) "og:description".data = [] →
      extractMetaContent (lowerL html.data) "description".data ≠ [] →
      (extract html).description =
        String.mk (trimSpace (extractMetaContent (lowerL html.data) "description".data)))) ∧
    (∀ v : List Char, (∀ c ∈ v, lcLetter c = true) → v ≠ [] →
      (extract (String.mk (nameDescTag v))).description = String.mk v) := by
  refine ⟨⟨?_, ?_⟩, ⟨?_, ?_⟩, extract_nameDesc_only⟩
  · intro h1
    rw [extract_title_eq, if_pos h1]
  · intro h1 h2
    rw [extract_title_eq, if_neg (by simp [h1]), if_pos h2]
  · intro h1
    rw [extract_description_eq, if_pos h1]
  · intro h1 h2
    rw [extract_description_eq, if_neg (by simp [h1]), if_pos h2]

/-- Witness for C1 at concrete markup: with both description sources present
the social value wins, and with only the generic source present the generic
value is returned (both via the concrete documents and via the universal
single-tag conjunct at the value "hello"). -/
theorem claim1_witness :
    (extractMetaContent (lowerL docBoth.data) "og:description".data ≠ [] ∧
      (extract docBoth).description =
        String.mk (trimSpace (extractMetaContent (lowerL docBoth.data) "og:description".data))) ∧
    (extract docBoth).description = "social one" ∧
    (extract docGenericOnly).description = "only generic" ∧
    ((∀ c ∈ "hello".data, lcLetter c = true) ∧ "hello".data ≠ [] ∧
      (extract (String.mk (nameDescTag "hello".data))).description =
        String.mk "hello".data) :=
  ⟨⟨by decide, ((claim1_override_precedence docBoth).2.1.1 (by decide))⟩,
   by decide, by decide,
   ⟨by decide, by decide,
    (claim1_override_precedence "").2.2 "hello".data (by decide) (by decide)⟩⟩

/-- C2 amended: the four meta patterns are tried in a fixed order (`name=`
forward, `property=` forward, then the two reversed-attribute orders) and the
leftmost match of the first succeeding pattern wins; document order therefore
decides only among tags matched by the same pattern — universally, for two
generic `name=`-marked description tags the first tag's value is returned —
while a later `name=` tag beats an earlier `property=` tag of the same key. -/
theorem claim2_amended_pattern_order :
    (∀ v1 v2 : List Char, (∀ c ∈ v1, lcLetter c = true) → v1 ≠ [] →
      (∀ c ∈ v2, lcLetter c = true) →
      (extract (String.mk (nameDescTag v1 ++ nameDescTag v2))).description =
        String.mk v1) ∧
    (extract docTwoName).description = "first value" ∧
    (extract docTwoProp).image = "img1.png" ∧
    (extract docMarkerOrder).description = "second in order" := by
  refine ⟨extract_firstOfTwo_nameDesc, ?_, ?_, ?_⟩ <;> decide

/-- Witness for the amended C2 at concrete values. -/
theorem claim2_witness :
    (∀ c ∈ "alpha".data, lcLetter c = true) ∧ "alpha".data ≠ [] ∧
    (∀ c ∈ "beta".data, lcLetter c = true) ∧
    (extract (String.mk (nameDescTag "alpha".data ++ nameDescTag "beta".data))).description =
      String.mk "alpha".data ∧
    String.mk "alpha".data = "alpha" :=
  ⟨by decide, by decide, by decide,
   claim2_amended_pattern_order.1 "alpha".data "beta".data
     (by decide) (by decide) (by decide),
   by decide⟩

/-!
### Model of Go `net/url` (the fragment used by `main.go`)

`FetchLinkPreview` calls `url.Parse`, mutates the `Scheme` field and
serializes with `URL.String()`; `http.NewRequestWithContext` re-parses the
final URL. The definitions below translate the corresponding `net/url`
functions of Go 1.22 (the toolchain pinned by the repository's Dockerfile).
Bytes are modelled as `Char`s, exact for ASCII data; `strconv.Quote`, used
only inside error messages, is modelled without its escaping of
non-printable characters. -/

/-- The `encoding` modes of net/url. -/
inductive Encoding where
  | path
  | pathSegment
  | host
  | zone
  | userPassword
  | queryComponent
  | fragment
deriving Repr, DecidableEq

/-- `ishex` of net/url. -/
def isHexDig (c : Char) : Bool :=
  ('0' ≤ c ∧ c ≤ '9') ∨ ('a' ≤ c ∧ c ≤ 'f') ∨ ('A' ≤ c ∧ c ≤ 'F')

/-- `unhex` of net/url. -/
def unhexNat (c : Char) : Nat :=
  if '0' ≤ c ∧ c ≤ '9' then c.toNat - 48
  else if 'a' ≤ c ∧ c ≤ 'f' then c.toNat - 97 + 10
  else if 'A' ≤ c ∧ c ≤ 'F' then c.toNat - 65 + 10
  else 0

/-- `shouldEscape` of net/url. -/
def shouldEscape (c : Char) (mode : Encoding) : Bool :=
  if ('a' ≤ c ∧ c ≤ 'z') ∨ ('A' ≤ c ∧ c ≤ 'Z') ∨ ('0' ≤ c ∧ c ≤ '9') then false
  else if (mode = .host ∨ mode = .zone) ∧
      c ∈ ['!', '$', '&', sq, '(', ')', '*', '+', ',', ';', '=', ':', '[', ']', '<', '>', dq]
    then false
  else if c = '-' ∨ c = '_' ∨ c = '.' ∨ c = '~' then false
  else if c ∈ ['$', '&', '+', ',', '/', ':', ';', '=', '?', '@'] then
    match mode with
    | .path => c = '?'
    | .pathSegment => c = '/' ∨ c = ';' ∨ c = ',' ∨ c = '?'
    | .userPassword => c = '@' ∨ c = '/' ∨ c = '?' ∨ c = ':'
    | .queryComponent => true
    | .fragment => false
    | _ => true
  else if mode = .fragment ∧ (c = '!' ∨ c = '(' ∨ c = ')' ∨ c = '*') then false
  else true

/-- `strconv.Quote` as it appears inside net/url error texts (no characters
needing escapes occur in the inputs considered here). -/
def goQuote (s : List Char) : List Char := [dq] ++ s ++ [dq]

/-- The message of a net/url `EscapeError`. -/
def escapeErrMsg (s : List Char) : String :=
  "invalid URL escape " ++ String.mk (goQuote s)

/-- The message of a net/url `InvalidHostError`. -/
def hostErrMsg (s : List Char) : String :=
  "invalid character " ++ String.mk (goQuote s) ++ " in host name"

/-- `unescape` of net/url: validates `%`-escapes (and host characters) and
decodes; `+` becomes a space only in query components. -/
def unescapeL : List Char → Encoding → Except String (List Char)
  | [], _ => .ok []
  | c :: rest, mode =>
    if c = '%' then
      match rest with
      | h1 :: h2 :: rest2 =>
        if ¬(isHexDig h1 ∧ isHexDig h2) then .error (escapeErrMsg ['%', h1, h2])
        else if mode = .host ∧ unhexNat h1 < 8 ∧ ¬(h1 = '2' ∧ h2 = '5') then
          .error (escapeErrMsg ['%', h1, h2])
        else if mode = .zone ∧
            (¬(h1 = '2' ∧ h2 = '5') ∧ unhexNat h1 * 16 + unhexNat h2 ≠ 32 ∧
              shouldEscape (Char.ofNat (unhexNat h1 * 16 + unhexNat h2)) .host) then
          .error (escapeErrMsg ['%', h1, h2])
        else
          match unescapeL rest2 mode with
          | .ok t => .ok (Char.ofNat (unhexNat h1 * 16 + unhexNat h2) :: t)
          | .error e => .error e
      | _ => .error (escapeErrMsg ('%' :: rest))
    else if c = '+' then
      match unescapeL rest mode with
      | .ok t => .ok ((if mode = .queryComponent then ' ' else '+') :: t)
      | .error e => .error e
    else
      if (mode = .host ∨ mode = .zone) ∧ c.toNat < 128 ∧ shouldEscape c mode then
        .error (hostErrMsg [c])
      else
        match unescapeL rest mode with
        | .ok t => .ok (c :: t)
        | .error e => .error e

/-- An upper-case hexadecimal digit (net/url's `upperhex` table). -/
def upperHexDigit (n : Nat) : Char :=
  if n < 10 then Char.ofNat (48 + n) else Char.ofNat (55 + n)

/-- A byte as `%XX`. -/
def pctEnc (c : Char) : List Char :=
  ['%', upperHexDigit (c.toNat / 16 % 16), upperHexDigit (c.toNat % 16)]

/-- `escape` of net/url. -/
def escapeL (s : List Char) (mode : Encoding) : List Char :=
  (s.map (fun c =>
    if c = ' ' ∧ mode = .queryComponent then ['+']
    else if shouldEscape c mode then pctEnc c
    else [c])).flatten

/-- `strings.Cut` on a separator character: the parts before and after the
first occurrence, or `none`. -/
def cutAt (sep : Char) : List Char → Option (List Char × List Char)
  | [] => none
  | c :: cs =>
    if c = sep then some ([], cs)
    else
      match cutAt sep cs with
      | some (a, b) => some (c :: a, b)
      | none => none

/-- `split(s, sep, true)` of net/url. -/
def splitCut (sep : Char) (s : List Char) : List Char × List Char :=
  match cutAt sep s with
  | some (a, b) => (a, b)
  | none => (s, [])

/-- Split at the last occurrence of `sep` (`strings.LastIndex`). -/
def lastCut (sep : Char) (s : List Char) : Option (List Char × List Char) :=
  match cutAt sep s.reverse with
  | some (a, b) => some (b.reverse, a.reverse)
  | none => none

/-- Split at the first occurrence of the substring `pat` (`strings.Index`):
the part before it and the part from it on. -/
def subSplit (pat : List Char) : List Char → Option (List Char × List Char)
  | [] => if pat = [] then some ([], []) else none
  | c :: cs =>
    if (chopLit pat (c :: cs)).isSome then some ([], c :: cs)
    else
      match subSplit pat cs with
      | some (a, b) => some (c :: a, b)
      | none => none

/-- `strings.HasPrefix`. -/
def startsWith (pre s : List Char) : Bool := (chopLit pre s).isSome

/-- `validOptionalPort` of net/url. -/
def validOptionalPort (port : List Char) : Bool :=
  match port with
  | [] => true
  | ':' :: rest => rest.all (fun b => '0' ≤ b ∧ b ≤ '9')
  | _ => false

/-- `validUserinfo` of net/url. -/
def validUserinfo (s : List Char) : Bool :=
  s.all (fun r =>
    ('A' ≤ r ∧ r ≤ 'Z') ∨ ('a' ≤ r ∧ r ≤ 'z') ∨ ('0' ≤ r ∧ r ≤ '9') ∨
    r ∈ ['-', '.', '_', ':', '~', '!', '$', '&', sq, '(', ')', '*', '+', ',', ';', '=', '%', '@'])

deriving instance DecidableEq for Except

/-- The `Userinfo` of net/url: a username and, when `passwordSet`, a
password. -/
structure UserInfo where
  username : List Char
  password : Option (List Char)
deriving Repr, DecidableEq

/-- `Userinfo.String` of net/url. -/
def userinfoStr (ui : UserInfo) : List Char :=
  escapeL ui.username .userPassword ++
    (match ui.password with
     | some p => ':' :: escapeL p .userPassword
     | none => [])

/-- The `URL` record of net/url (`opq` models the field named `Opaque`). -/
structure GoURL where
  scheme : List Char := []
  opq : List Char := []
  user : Option UserInfo := none
  host : List Char := []
  path : List Char := []
  rawPath : List Char := []
  omitHost : Bool := false
  forceQuery : Bool := false
  rawQuery : List Char := []
  fragment : List Char := []
  rawFragment : List Char := []
deriving Repr, DecidableEq

/-- `stringContainsCTLByte` of net/url. -/
def containsCTLByte (s : List Char) : Bool :=
  s.any (fun c => c.toNat < 32 ∨ c.toNat = 127)

/-- `parseHost` of net/url. -/
def parseHost (host : List Char) : Except String (List Char) :=
  if host.head? = some '[' then
    match lastCut ']' host with
    | none => .error "missing ']' in host"
    | some (before, colonPort) =>
      if ¬ validOptionalPort colonPort then
        .error ("invalid port " ++ String.mk (goQuote colonPort) ++ " after host")
      else
        match subSplit "%25".data before with
        | some (pre0, zoneOn) =>
          match unescapeL pre0 .host with
          | .error e => .error e
          | .ok host1 =>
            match unescapeL zoneOn .zone with
            | .error e => .error e
            | .ok host2 =>
              match unescapeL (']' :: colonPort) .host with
              | .error e => .error e
              | .ok host3 => .ok (host1 ++ host2 ++ host3)
        | none => unescapeL host .host
  else
    match lastCut ':' host with
    | some (_, after) =>
      if ¬ validOptionalPort (':' :: after) then
        .error ("invalid port " ++ String.mk (goQuote (':' :: after)) ++ " after host")
      else unescapeL host .host
    | none => unescapeL host .host

/-- `parseAuthority` of net/url. -/
def parseAuthority (authority : List Char) :
    Except String (Option UserInfo × List Char) :=
  match lastCut '@' authority with
  | none =>
    match parseHost authority with
    | .error e => .error e
    | .ok host => .ok (none, host)
  | some (userinfo, hostPart) =>
    match parseHost hostPart with
    | .error e => .error e
    | .ok host =>
      if ¬ validUserinfo userinfo then .error "net/url: invalid userinfo"
      else
        match cutAt ':' userinfo with
        | none =>
          match unescapeL userinfo .userPassword with
          | .error e => .error e
          | .ok uname => .ok (some ⟨uname, none⟩, host)
        | some (uname0, pass0) =>
          match unescapeL uname0 .userPassword with
          | .error e => .error e
          | .ok uname =>
            match unescapeL pass0 .userPassword with
            | .error e => .error e
            | .ok pass => .ok (some ⟨uname, some pass⟩, host)

/-- `URL.setPath` of net/url. -/
def setPathF (u : GoURL) (p : List Char) : Except String GoURL :=
  match unescapeL p .path with
  | .error e => .error e
  | .ok path =>
    if p = escapeL path .path then .ok { u with path := path, rawPath := [] }
    else .ok { u with path := path, rawPath := p }

/-- `URL.setFragment` of net/url. -/
def setFragmentF (u : GoURL) (f : List Char) : Except String GoURL :=
  match unescapeL f .fragment with
  | .error e => .error e
  | .ok frag =>
    if f = escapeL frag .fragment then .ok { u with fragment := frag, rawFragment := [] }
    else .ok { u with fragment := frag, rawFragment := f }

/-- The loop of `getScheme` of net/url (`raw` is the whole input; `i` the
current index). -/
def getSchemeLoop (raw : List Char) : List Char → Nat → Except String (List Char × List Char)
  | [], _ => .ok ([], raw)
  | c :: cs, i =>
    if ('a' ≤ c ∧ c ≤ 'z') ∨ ('A' ≤ c ∧ c ≤ 'Z') then getSchemeLoop raw cs (i + 1)
    else if ('0' ≤ c ∧ c ≤ '9') ∨ c = '+' ∨ c = '-' ∨ c = '.' then
      if i = 0 then .ok ([], raw) else getSchemeLoop raw cs (i + 1)
    else if c = ':' then
      if i = 0 then .error "missing protocol scheme"
      else .ok (raw.take i, raw.drop (i + 1))
    else .ok ([], raw)

/-- `getScheme` of net/url. -/
def getScheme (raw : List Char) : Except String (List Char × List Char) :=
  getSchemeLoop raw raw 0

/-- `parse(rawURL, viaRequest := false)` of net/url — the only form `Parse`
uses. -/
def parseGo (rawURL : List Char) : Except String GoURL :=
  if containsCTLByte rawURL then .error "net/url: invalid control character in URL"
  else if rawURL = "*".data then .ok { path := "*".data }
  else
    match getScheme rawURL with
    | .error e => .error e
    | .ok (scheme0, rest0) =>
      let scheme := lowerL scheme0
      let qsplit :=
        if rest0.getLast? = some '?' ∧ ¬(rest0.dropLast.contains '?') then
          (rest0.dropLast, true, ([] : List Char))
        else
          match cutAt '?' rest0 with
          | some (a, b) => (a, false, b)
          | none => (rest0, false, [])
      let rest := qsplit.1
      let forceQuery := qsplit.2.1
      let rawQuery := qsplit.2.2
      if rest.head? ≠ some '/' then
        if scheme ≠ [] then
          .ok { scheme := scheme, opq := rest, forceQuery := forceQuery, rawQuery := rawQuery }
        else
          let segment := match cutAt '/' rest with | some (a, _) => a | none => rest
          if segment.contains ':' then
            .error "first path segment in URL cannot contain colon"
          else
            setPathF { scheme := scheme, forceQuery := forceQuery, rawQuery := rawQuery } rest
      else
        if (scheme ≠ [] ∨ ¬ startsWith "///".data rest) ∧ startsWith "//".data rest then
          let afterSlashes := rest.drop 2
          let asplit :=
            match cutAt '/' afterSlashes with
            | some (a, b) => (a, '/' :: b)
            | none => (afterSlashes, ([] : List Char))
          match parseAuthority asplit.1 with
          | .error e => .error e
          | .ok (user, host) =>
            setPathF
              { scheme := scheme, user := user, host := host,
                forceQuery := forceQuery, rawQuery := rawQuery } asplit.2
        else
          setPathF
            { scheme := scheme, omitHost := scheme ≠ [],
              forceQuery := forceQuery, rawQuery := rawQuery } rest

/-- `url.Parse` of net/url, with the error text of `url.Error`
(`parse "rawURL": inner`). -/
def urlParse (rawURL : List Char) : Except String GoURL :=
  let fsplit := splitCut '#' rawURL
  match parseGo fsplit.1 with
  | .error err => .error ("parse " ++ String.mk (goQuote fsplit.1) ++ ": " ++ err)
  | .ok url =>
    if fsplit.2 = [] then .ok url
    else
      match setFragmentF url fsplit.2 with
      | .error err => .error ("parse " ++ String.mk (goQuote rawURL) ++ ": " ++ err)
      | .ok url2 => .ok url2

/-- `validEncoded` of net/url. -/
def validEncoded (s : List Char) (mode : Encoding) : Bool :=
  s.all (fun c =>
    if c ∈ ['!', '$', '&', sq, '(', ')', '*', '+', ',', ';', '=', ':', '@'] then true
    else if c = '[' ∨ c = ']' then true
    else if c = '%' then true
    else ¬ shouldEscape c mode)

/-- The fallback of `URL.EscapedPath`. -/
def pathFallback (u : GoURL) : List Char :=
  if u.path = "*".data then "*".data else escapeL u.path .path

/-- `URL.EscapedPath` of net/url. -/
def escapedPath (u : GoURL) : List Char :=
  if u.rawPath ≠ [] ∧ validEncoded u.rawPath .path then
    match unescapeL u.rawPath .path with
    | .ok p => if p = u.path then u.rawPath else pathFallback u
    | .error _ => pathFallback u
  else pathFallback u

/-- `URL.EscapedFragment` of net/url. -/
def escapedFragment (u : GoURL) : List Char :=
  if u.rawFragment ≠ [] ∧ validEncoded u.rawFragment .fragment then
    match unescapeL u.rawFragment .fragment with
    | .ok f => if f = u.fragment then u.rawFragment else escapeL u.fragment .fragment
    | .error _ => escapeL u.fragment .fragment
  else escapeL u.fragment .fragment

/-- `URL.String` of net/url. -/
def urlString (u : GoURL) : List Char :=
  let start := if u.scheme ≠ [] then u.scheme ++ [':'] else []
  let core :=
    if u.opq ≠ [] then u.opq
    else
      let auth :=
        if u.scheme ≠ [] ∨ u.host ≠ [] ∨ u.user.isSome then
          if u.omitHost ∧ u.host = [] ∧ u.user.isNone then []
          else
            (if u.host ≠ [] ∨ u.path ≠ [] ∨ u.user.isSome then '/' :: ['/'] else []) ++
            (match u.user with
             | some ui => userinfoStr ui ++ ['@']
             | none => []) ++
            (if u.host ≠ [] then escapeL u.host .host else [])
        else []
      let path := escapedPath u
      let slash := if path ≠ [] ∧ path.head? ≠ some '/' ∧ u.host ≠ [] then ['/'] else []
      let dotSlash :=
        if start = [] ∧ auth = [] then
          (let segment := match cutAt '/' path with | some (a, _) => a | none => path
           if segment.contains ':' then '.' :: ['/'] else [])
        else []
      auth ++ slash ++ dotSlash ++ path
  let query := if u.forceQuery ∨ u.rawQuery ≠ [] then '?' :: u.rawQuery else []
  let frag := if u.fragment ≠ [] then '#' :: escapedFragment u else []
  start ++ core ++ query ++ frag

/-!
### Model of `FetchLinkPreview`

The network is an oracle from the final request URL to an outcome of
`client.Do` plus the body stream; the goroutine/channel mechanics are the
subject of C9 and are not part of this shallow embedding — the function below
is the `LinkPreviewResponse` value the goroutine builds and hands to the
result channel. -/

/-- What the environment returns for a request: a `client.Do` error, or a
response with status code, `Status` string, body stream and an optional
body-read error. -/
inductive NetOutcome where
  | doErr (msg : String)
  | resp (statusCode : Nat) (status : String) (body : String) (readErr : Option String)

/-- The `Status` field of a Go `http.Response` as produced by the standard
transport: the reason phrase prefixed by the numeric code (net/http documents
it as e.g. `"200 OK"`). -/
def goRespStatus (code : Nat) (reasonPhrase : String) : String :=
  toString code ++ " " ++ reasonPhrase

/-- `io.ReadAll(io.LimitReader(resp.Body, 1024*1024))` on an error-free
stream: at most the first 1 MiB of the body. -/
def limitedRead (body : List Char) : List Char := body.take (1024 * 1024)

/-- The stages of `FetchLinkPreview` (`main.go` lines 79–111) after URL
validation and normalization, with `targetURL` the final URL: request
creation (`http.NewRequestWithContext` re-parses the URL), `client.Do`,
status check, bounded body read, extraction. In both callers the result
record so far is exactly `{ url := targetURL }` with every other field
empty. -/
def fetchStage2 (targetURL : String) (net : String → NetOutcome) : LinkPreviewResponse :=
  let result := { emptyResponse with url := targetURL }
  match urlParse targetURL.data with
  | .error e => { result with error := "Failed to create request: " ++ e }
  | .ok _ =>
    match net targetURL with
    | .doErr msg => { result with error := "Failed to fetch URL: " ++ msg }
    | .resp code status body readErr =>
      if code ≠ 200 then
        { result with error := "HTTP error: " ++ toString code ++ " " ++ status }
      else
        match readErr with
        | some msg => { result with error := "Failed to read response body: " ++ msg }
        | none => extractMetadata (String.mk (limitedRead body.data)) result

/-- `FetchLinkPreview` of `main.go`: validate the URL (`url.Parse`), default
a missing scheme to `https` re-serializing with `URL.String()` and echoing
the result in `url`, then fetch and extract. -/
def FetchLinkPreview (targetURL : String) (net : String → NetOutcome) : LinkPreviewResponse :=
  match urlParse targetURL.data with
  | .error e =>
    { emptyResponse with url := targetURL, error := "Invalid URL format: " ++ e }
  | .ok parsedURL =>
    if parsedURL.scheme = [] then
      fetchStage2 (String.mk (urlString { parsedURL with scheme := "https".data })) net
    else fetchStage2 targetURL net

/-! ### Branch lemmas for the fetch model -/

theorem extractMetadata_url_error (h : String) (r : LinkPreviewResponse) :
    (extractMetadata h r).url = r.url ∧ (extractMetadata h r).error = r.error := by
  simp only [extractMetadata]
  split_ifs <;> exact ⟨rfl, rfl⟩

theorem fetchStage2_url (t : String) (net : String → NetOutcome) :
    (fetchStage2 t net).url = t := by
  unfold fetchStage2
  cases urlParse t.data with
  | error e => rfl
  | ok v =>
    cases net t with
    | doErr msg => rfl
    | resp code status body readErr =>
      dsimp only
      by_cases hc : code ≠ 200
      · rw [if_pos hc]
      · rw [if_neg hc]
        cases readErr with
        | some msg => rfl
        | none => exact (extractMetadata_url_error _ _).1

theorem fetchStage2_shape (t : String) (net : String → NetOutcome) :
    (fetchStage2 t net).error = "" ∨
      ((fetchStage2 t net).title = "" ∧ (fetchStage2 t net).description = "" ∧
       (fetchStage2 t net).image = "" ∧ (fetchStage2 t net).siteName = "") := by
  unfold fetchStage2
  cases urlParse t.data with
  | error e => right; exact ⟨rfl, rfl, rfl, rfl⟩
  | ok v =>
    cases net t with
    | doErr msg => right; exact ⟨rfl, rfl, rfl, rfl⟩
    | resp code status body readErr =>
      dsimp only
      by_cases hc : code ≠ 200
      · rw [if_pos hc]; right; exact ⟨rfl, rfl, rfl, rfl⟩
      · rw [if_neg hc]
        cases readErr with
        | some msg => right; exact ⟨rfl, rfl, rfl, rfl⟩
        | none => left; exact (extractMetadata_url_error _ _).2

theorem fetch_url_of_parse_ok {s : String} {v : GoURL}
    (hp : urlParse s.data = .ok v) (net : String → NetOutcome) :
    (FetchLinkPreview s net).url =
      if v.scheme = [] then String.mk (urlString { v with scheme := "https".data })
      else s := by
  unfold FetchLinkPreview
  rw [hp]
  dsimp only
  by_cases hs : v.scheme = []
  · rw [if_pos hs, if_pos hs, fetchStage2_url]
  · rw [if_neg hs, if_neg hs, fetchStage2_url]

/-! ### Scheme-less plain inputs round-trip through Parse/String

For inputs made of lower-case letters, digits, `.`, `-` and `/` (not starting
with `/`), normalization is literally `https://` prepended: parsing yields a
bare path and serialization escapes nothing. -/

/-- Characters for which URL normalization is the identity. -/
def plainCh (c : Char) : Bool :=
  ('a' ≤ c ∧ c ≤ 'z') ∨ ('0' ≤ c ∧ c ≤ '9') ∨ c = '.' ∨ c = '-' ∨ c = '/'

theorem plain_notSpecial {c : Char} (h : plainCh c = true) (d : Char)
    (hd : plainCh d = false) : c ≠ d := by
  intro he
  rw [he, hd] at h
  cases h

theorem plain_toNat_bounds {c : Char} (h : plainCh c = true) :
    45 ≤ c.toNat ∧ c.toNat ≤ 122 := by
  simp only [plainCh, decide_eq_true_eq] at h
  rcases h with h1 | h1 | rfl | rfl | rfl
  · have ha := char_toNat_le_of_le h1.1
    have hb := char_toNat_le_of_le h1.2
    have e1 : Char.toNat 'a' = 97 := rfl
    have e2 : Char.toNat 'z' = 122 := rfl
    omega
  · have ha := char_toNat_le_of_le h1.1
    have hb := char_toNat_le_of_le h1.2
    have e1 : Char.toNat '0' = 48 := rfl
    have e2 : Char.toNat '9' = 57 := rfl
    omega
  · decide
  · decide
  · decide

theorem containsCTL_false {s : List Char} (h : ∀ c ∈ s, plainCh c = true) :
    containsCTLByte s = false := by
  rw [containsCTLByte, List.any_eq_false]
  intro c hc
  have := plain_toNat_bounds (h c hc)
  simp only [decide_eq_true_eq]
  omega

theorem cutAt_eq_none {sep : Char} : ∀ {s : List Char},
    (∀ c ∈ s, c ≠ sep) → cutAt sep s = none := by
  intro s
  induction s with
  | nil => intro _; rfl
  | cons c cs ih =>
    intro h
    rw [cutAt, if_neg (h c (List.mem_cons_self _ _)),
      ih (fun d hd => h d (List.mem_cons_of_mem _ hd))]

theorem cutAt_sound {sep : Char} : ∀ {s a b : List Char},
    cutAt sep s = some (a, b) → s = a ++ sep :: b := by
  intro s
  induction s with
  | nil => intro a b h; simp [cutAt] at h
  | cons c cs ih =>
    intro a b h
    rw [cutAt] at h
    by_cases hc : c = sep
    · rw [if_pos hc] at h
      simp at h
      obtain ⟨rfl, rfl⟩ := h
      simp [hc]
    · rw [if_neg hc] at h
      cases hcut : cutAt sep cs with
      | some ab =>
        obtain ⟨a2, b2⟩ := ab
        rw [hcut] at h
        simp at h
        obtain ⟨rfl, rfl⟩ := h
        simpa using ih hcut
      | none => rw [hcut] at h; simp at h

theorem getSchemeLoop_no_colon (raw : List Char) : ∀ (rem : List Char) (i : Nat),
    (∀ c ∈ rem, c ≠ ':') → getSchemeLoop raw rem i = .ok ([], raw) := by
  intro rem
  induction rem with
  | nil => intro i _; rfl
  | cons c cs ih =>
    intro i h
    have htail : ∀ d ∈ cs, d ≠ ':' := fun d hd => h d (List.mem_cons_of_mem _ hd)
    rw [getSchemeLoop]
    by_cases h1 : ('a' ≤ c ∧ c ≤ 'z') ∨ ('A' ≤ c ∧ c ≤ 'Z')
    · rw [if_pos h1]
      exact ih (i + 1) htail
    · rw [if_neg h1]
      by_cases h2 : ('0' ≤ c ∧ c ≤ '9') ∨ c = '+' ∨ c = '-' ∨ c = '.'
      · rw [if_pos h2]
        by_cases h3 : i = 0
        · rw [if_pos h3]
        · rw [if_neg h3]
          exact ih (i + 1) htail
      · rw [if_neg h2, if_neg (h c (List.mem_cons_self _ _))]

theorem unescapeL_path_id : ∀ {s : List Char},
    (∀ c ∈ s, c ≠ '%' ∧ c ≠ '+') → unescapeL s .path = .ok s := by
  intro s
  induction s with
  | nil => intro _; rfl
  | cons c cs ih =>
    intro h
    rw [unescapeL.eq_def]
    dsimp only
    rw [if_neg (h c (List.mem_cons_self _ _)).1,
      if_neg (h c (List.mem_cons_self _ _)).2, if_neg (by simp),
      ih (fun d hd => h d (List.mem_cons_of_mem _ hd))]

theorem shouldEscape_path_plain {c : Char} (h : plainCh c = true) :
    shouldEscape c .path = false := by
  simp only [plainCh, decide_eq_true_eq] at h
  rcases h with h1 | h1 | rfl | rfl | rfl
  · unfold shouldEscape
    rw [if_pos (Or.inl h1)]
  · unfold shouldEscape
    rw [if_pos (Or.inr (Or.inr h1))]
  · decide
  · decide
  · decide

theorem escapeL_path_id : ∀ {s : List Char},
    (∀ c ∈ s, shouldEscape c .path = false) → escapeL s .path = s := by
  intro s
  induction s with
  | nil => intro _; rfl
  | cons c cs ih =>
    intro h
    simp only [escapeL, List.map_cons, List.flatten_cons] at ih ⊢
    rw [if_neg (by simp), h c (List.mem_cons_self _ _)]
    simp only [Bool.false_eq_true, if_false, List.singleton_append, List.cons.injEq, true_and]
    exact ih (fun d hd => h d (List.mem_cons_of_mem _ hd))

theorem parseGo_plain {s : List Char}
    (hall : ∀ c ∈ s, plainCh c = true) (hhead : s.head? ≠ some '/') :
    parseGo s = .ok { path := s } := by
  have hplain : ∀ (d : Char), plainCh d = false → ∀ c ∈ s, c ≠ d :=
    fun d hd c hc => plain_notSpecial (hall c hc) d hd
  have hstar : s ≠ "*".data := by
    intro he
    have := hall '*' (by rw [he]; exact List.mem_cons_self _ _)
    exact absurd this (by decide)
  unfold parseGo
  rw [containsCTL_false hall]
  rw [if_neg (by simp), if_neg hstar]
  rw [show getScheme s = .ok ([], s) from
    getSchemeLoop_no_colon s s 0 (hplain ':' (by decide))]
  dsimp only
  have hq : ¬(s.getLast? = some '?' ∧ ¬(s.dropLast.contains '?' = true)) := by
    rintro ⟨h1, -⟩
    exact absurd h1 (by
      cases hl : s.getLast? with
      | none => simp
      | some d =>
        have hd : d ∈ s := List.mem_of_getLast?_eq_some hl
        simp only [Option.some.injEq]
        exact fun he => hplain '?' (by decide) d hd (he ▸ rfl))
  rw [if_neg hq, cutAt_eq_none (hplain '?' (by decide))]
  dsimp only
  rw [if_pos hhead, if_neg (by simp [lowerL])]
  have hseg :
      ¬((match cutAt '/' s with | some (a, _) => a | none => s).contains ':' = true) := by
    cases hcut : cutAt '/' s with
    | some ab =>
      obtain ⟨a, b⟩ := ab
      have hs2 := cutAt_sound hcut
      simp only [List.contains, List.elem_eq_mem, decide_eq_true_eq]
      intro hmem
      exact hplain ':' (by decide) ':' (by rw [hs2]; exact List.mem_append_left _ hmem) rfl
    | none =>
      simp only [List.contains, List.elem_eq_mem, decide_eq_true_eq]
      intro hmem
      exact hplain ':' (by decide) ':' hmem rfl
  rw [if_neg hseg]
  unfold setPathF
  rw [unescapeL_path_id (fun c hc =>
    ⟨hplain '%' (by decide) c hc, hplain '+' (by decide) c hc⟩)]
  dsimp only
  rw [if_pos (by
    exact (escapeL_path_id (fun c hc => shouldEscape_path_plain (hall c hc))).symm)]
  rfl

theorem urlParse_plain {s : List Char}
    (hall : ∀ c ∈ s, plainCh c = true) (hhead : s.head? ≠ some '/') :
    urlParse s = .ok { path := s } := by
  unfold urlParse
  have hsplit : splitCut '#' s = (s, []) := by
    unfold splitCut
    rw [cutAt_eq_none (fun c hc => plain_notSpecial (hall c hc) '#' (by decide))]
  rw [hsplit]
  dsimp only
  rw [parseGo_plain hall hhead]
  dsimp only
  rw [if_pos rfl]

theorem urlString_https_plain {s : List Char} (hne : s ≠ []) (hstar : s ≠ "*".data)
    (hesc : escapeL s .path = s) :
    urlString { ({ path := s } : GoURL) with scheme := "https".data } =
      "https://".data ++ s := by
  unfold urlString
  dsimp only
  rw [if_pos (by decide)]
  rw [if_neg (by simp)]
  rw [if_pos (Or.inl (by decide))]
  rw [if_neg (by simp)]
  rw [if_pos (Or.inr (Or.inl hne))]
  have hpath : escapedPath { ({ path := s } : GoURL) with scheme := "https".data } = s := by
    unfold escapedPath
    rw [if_neg (by simp)]
    unfold pathFallback
    rw [if_neg hstar]
    exact hesc
  rw [hpath]
  rw [if_neg (by simp)]
  rw [if_neg (by simp)]
  rw [if_neg (by simp)]
  rw [if_neg (by simp)]
  rw [if_neg (by simp)]
  simp

theorem fetch_url_plain {l : List Char} (hne : l ≠ [])
    (hall : ∀ c ∈ l, plainCh c = true) (hhead : l.head? ≠ some '/')
    (net : String → NetOutcome) :
    (FetchLinkPreview (String.mk l) net).url = String.mk ("https://".data ++ l) := by
  have hp : urlParse (String.mk l).data = .ok { path := l } := urlParse_plain hall hhead
  rw [fetch_url_of_parse_ok hp, if_pos rfl]
  have hstar : l ≠ "*".data := by
    intro he
    have := hall '*' (by rw [he]; exact List.mem_cons_self _ _)
    exact absurd this (by decide)
  rw [urlString_https_plain hne hstar
    (escapeL_path_id (fun c hc => shouldEscape_path_plain (hall c hc)))]

/-! ### Oracles used as concrete network environments -/

/-- A network oracle whose `client.Do` always fails. -/
def netRefused : String → NetOutcome := fun _ => .doErr "connection refused"

/-- A network oracle answering every request with a standard 404. -/
def net404 : String → NetOutcome :=
  fun _ => .resp 404 (goRespStatus 404 "Not Found") "" none

/-- The input parses successfully and without a scheme (decidable). -/
def parsesNoScheme (s : String) : Bool :=
  match urlParse s.data with
  | .ok v => v.scheme = []
  | .error _ => false

/-! ### Claims about the Orchestrator/Fetcher -/

/-- C4 counterexample: `"a b"` parses successfully and lacks a scheme, yet
the echoed URL is the percent-encoded serialization `"https://a%20b"` — not
the input with `https://` prepended and no other part altered. -/
theorem claim4_counterexample :
    parsesNoScheme "a b" = true ∧
    (FetchLinkPreview "a b" netRefused).url = "https://a%20b" ∧
    (FetchLinkPreview "a b" netRefused).url ≠ "https://a b" := by
  refine ⟨?_, ?_, ?_⟩ <;> decide

/-- C4 amended: for a scheme-less parseable input, the URL used and echoed
back is the net/url serialization of the parsed URL with scheme `https` —
which equals `"https://" ++ input` exactly when serialization preserves the
input, e.g. for `"example.com"` — and an input already carrying a scheme is
echoed unchanged. -/
theorem claim4_amended_echo (s : String) (net : String → NetOutcome) :
    (∀ v : GoURL, urlParse s.data = .ok v → v.scheme = [] →
      (FetchLinkPreview s net).url =
        String.mk (urlString { v with scheme := "https".data })) ∧
    (∀ v : GoURL, urlParse s.data = .ok v → v.scheme ≠ [] →
      (FetchLinkPreview s net).url = s) ∧
    (∀ l : List Char, l ≠ [] → (∀ c ∈ l, plainCh c = true) → l.head? ≠ some '/' →
      (FetchLinkPreview (String.mk l) net).url = String.mk ("https://".data ++ l)) ∧
    (FetchLinkPreview "example.com" net).url = "https://example.com" := by
  refine ⟨?_, ?_, ?_, ?_⟩
  · intro v hp hs
    rw [fetch_url_of_parse_ok hp, if_pos hs]
  · intro v hp hs
    rw [fetch_url_of_parse_ok hp, if_neg hs]
  · intro l hne hall hhead
    exact fetch_url_plain hne hall hhead net
  · rw [@fetch_url_of_parse_ok "example.com" { path := "example.com".data } (by decide) net]
    decide

/-- Witness for the amended C4 at concrete inputs with and without scheme. -/
theorem claim4_witness :
    urlParse "example.com".data = Except.ok { path := "example.com".data } ∧
    (FetchLinkPreview "example.com" netRefused).url =
      String.mk (urlString
        { ({ path := "example.com".data } : GoURL) with scheme := "https".data }) ∧
    urlParse "https://ok.test".data =
      Except.ok { scheme := "https".data, host := "ok.test".data } ∧
    (FetchLinkPreview "https://ok.test" netRefused).url = "https://ok.test" ∧
    (FetchLinkPreview "go.dev/tour" netRefused).url =
      String.mk ("https://".data ++ "go.dev/tour".data) ∧
    String.mk ("https://".data ++ "go.dev/tour".data) = "https://go.dev/tour" :=
  ⟨by decide,
   (claim4_amended_echo "example.com" netRefused).1
     { path := "example.com".data } (by decide) (by decide),
   by decide,
   (claim4_amended_echo "https://ok.test" netRefused).2.1
     { scheme := "https".data, host := "ok.test".data } (by decide) (by decide),
   (claim4_amended_echo "go.dev" netRefused).2.2.1
     "go.dev/tour".data (by decide) (by decide) (by decide),
   by decide⟩

/-- C5 amended: for every URL string that `url.Parse` rejects, the result is
immediate — `error` carries the invalid-URL message and every metadata field
is empty — and the network oracle is never consulted (the result is
identical under every oracle). The spec's example input `"not a url"`,
however, is accepted by Go's parser, so the invalid-URL outcome does not
apply to it (see the counterexample). -/
theorem claim5_amended_invalid_input (s e : String) (net net2 : String → NetOutcome)
    (hp : urlParse s.data = .error e) :
    FetchLinkPreview s net =
      { url := s, title := "", description := "", image := "", siteName := "",
        error := "Invalid URL format: " ++ e } ∧
    FetchLinkPreview s net = FetchLinkPreview s net2 := by
  unfold FetchLinkPreview
  rw [hp]
  exact ⟨rfl, rfl⟩

/-- C5 counterexample: `"not a url"` is parsed successfully by net/url
(spaces are not rejected), so Resolve does not return the claimed
`{url: "not a url", error: "Invalid URL format: ..."}`: the echoed URL is the
normalization `"https://not%20a%20url"`, and the failure actually produced is
a request-construction error (net/http rejects `%20` inside a host), with the
network never reached. -/
theorem claim5_counterexample :
    urlParse "not a url".data =
      Except.ok { path := "not a url".data, rawPath := "not a url".data } ∧
    (FetchLinkPreview "not a url" netRefused).url = "https://not%20a%20url" ∧
    (FetchLinkPreview "not a url" netRefused).error =
      "Failed to create request: parse \"https://not%20a%20url\": invalid URL escape \"%20\"" ∧
    (FetchLinkPreview "not a url" netRefused).url ≠ "not a url" := by
  refine ⟨?_, ?_, ?_, ?_⟩ <;> decide

/-- Witness for the amended C5 at the genuinely unparsable input `"%zz"`. -/
theorem claim5_witness :
    urlParse "%zz".data =
      Except.error "parse \"%zz\": invalid URL escape \"%zz\"" ∧
    FetchLinkPreview "%zz" netRefused =
      { url := "%zz", title := "", description := "", image := "", siteName := "",
        error := "Invalid URL format: " ++ "parse \"%zz\": invalid URL escape \"%zz\"" } ∧
    FetchLinkPreview "%zz" netRefused = FetchLinkPreview "%zz" net404 :=
  ⟨by decide,
   (claim5_amended_invalid_input "%zz" "parse \"%zz\": invalid URL escape \"%zz\""
      netRefused net404 (by decide)).1,
   (claim5_amended_invalid_input "%zz" "parse \"%zz\": invalid URL escape \"%zz\""
      netRefused net404 (by decide)).2⟩

/-- C6 amended: a non-200 response produces
`error = "HTTP error: <code> <Status>"` with all metadata fields empty, where
`<Status>` is Go's `http.Response.Status` — a string that itself begins with
the numeric code (e.g. `"404 Not Found"`) — so for a remote 404 the message
is `"HTTP error: 404 404 Not Found"`, the code appearing twice, not
`"HTTP error: 404 Not Found"`. -/
theorem claim6_amended_http_error (s : String) (v : GoURL) (code : Nat)
    (status body : String) (re : Option String)
    (hp : urlParse s.data = .ok v) (hs : v.scheme ≠ []) (hc : code ≠ 200) :
    FetchLinkPreview s (fun _ => .resp code status body re) =
      { url := s, title := "", description := "", image := "", siteName := "",
        error := "HTTP error: " ++ toString code ++ " " ++ status } := by
  unfold FetchLinkPreview
  rw [hp]
  dsimp only
  rw [if_neg hs]
  unfold fetchStage2
  rw [hp]
  dsimp only
  rw [if_pos hc]
  rfl

/-- C6 counterexample: for a standard remote 404 (whose `Status` is
`"404 Not Found"`), the error message is `"HTTP error: 404 404 Not Found"`,
not the claimed `"HTTP error: 404 Not Found"`. -/
theorem claim6_counterexample :
    (FetchLinkPreview "https://example.com" net404).error =
      "HTTP error: 404 404 Not Found" ∧
    (FetchLinkPreview "https://example.com" net404).error ≠
      "HTTP error: 404 Not Found" := by
  constructor <;> decide

/-- Witness for the amended C6 at a concrete 500 response. -/
theorem claim6_witness :
    urlParse "https://a.example".data =
      Except.ok { scheme := "https".data, host := "a.example".data } ∧
    FetchLinkPreview "https://a.example"
        (fun _ => .resp 500 "500 Internal Server Error" "" none) =
      { url := "https://a.example", title := "", description := "", image := "",
        siteName := "",
        error := "HTTP error: " ++ toString 500 ++ " " ++ "500 Internal Server Error" } ∧
    ("HTTP error: " ++ toString 500 ++ " " ++ "500 Internal Server Error") =
      "HTTP error: 500 500 Internal Server Error" :=
  ⟨by decide,
   claim6_amended_http_error "https://a.example"
     { scheme := "https".data, host := "a.example".data }
     500 "500 Internal Server Error" "" none (by decide) (by decide) (by decide),
   by decide⟩

/-- C8: the Fetcher reads at most 1,048,576 bytes of the body: the extraction
stage always sees exactly the first 1 MiB of the stream (truncation carries
no error and no flag — the result's error field is empty), and a body at or
under the ceiling is passed through whole. -/
theorem claim8_truncation (s : String) (v : GoURL) (st body : String)
    (hp : urlParse s.data = .ok v) (hs : v.scheme ≠ []) :
    FetchLinkPreview s (fun _ => .resp 200 st body none) =
      extractMetadata (String.mk (limitedRead body.data)) { emptyResponse with url := s } ∧
    (FetchLinkPreview s (fun _ => .resp 200 st body none)).error = "" ∧
    (limitedRead body.data).length = min (1024 * 1024) body.data.length ∧
    (body.data.length ≤ 1024 * 1024 → limitedRead body.data = body.data) := by
  have hfetch : FetchLinkPreview s (fun _ => .resp 200 st body none) =
      extractMetadata (String.mk (limitedRead body.data)) { emptyResponse with url := s } := by
    unfold FetchLinkPreview
    rw [hp]
    dsimp only
    rw [if_neg hs]
    unfold fetchStage2
    rw [hp]
    dsimp only
    rw [if_neg (by simp)]
  refine ⟨hfetch, ?_, ?_, ?_⟩
  · rw [hfetch]
    exact (extractMetadata_url_error _ _).2
  · simp [limitedRead]
  · intro hlen
    simp [limitedRead, List.take_of_length_le hlen]

/-- Witness for C8: a body one byte over the ceiling is cut to exactly
1,048,576 bytes and produces no error. -/
theorem claim8_witness :
    urlParse "https://big.example".data =
      Except.ok { scheme := "https".data, host := "big.example".data } ∧
    (FetchLinkPreview "https://big.example"
        (fun _ => .resp 200 "200 OK" (String.mk (List.replicate 1048577 'a')) none)).error = "" ∧
    limitedRead (String.mk (List.replicate 1048577 'a')).data =
      List.replicate 1048576 'a' := by
  refine ⟨by decide,
    (claim8_truncation "https://big.example"
      { scheme := "https".data, host := "big.example".data }
      "200 OK" (String.mk (List.replicate 1048577 'a'))
      (by decide) (by decide)).2.1, ?_⟩
  show (List.replicate 1048577 'a').take (1024 * 1024) = List.replicate 1048576 'a'
  rw [List.take_replicate]
  norm_num

/-- C10: whenever a produced result carries a non-empty error, all four
metadata fields are empty — every error path returns before extraction
runs. -/
theorem claim10_error_excludes_fields (s : String) (net : String → NetOutcome)
    (h : (FetchLinkPreview s net).error ≠ "") :
    (FetchLinkPreview s net).title = "" ∧ (FetchLinkPreview s net).description = "" ∧
    (FetchLinkPreview s net).image = "" ∧ (FetchLinkPreview s net).siteName = "" := by
  have hshape : (FetchLinkPreview s net).error = "" ∨
      ((FetchLinkPreview s net).title = "" ∧ (FetchLinkPreview s net).description = "" ∧
       (FetchLinkPreview s net).image = "" ∧ (FetchLinkPreview s net).siteName = "") := by
    unfold FetchLinkPreview
    cases hp : urlParse s.data with
    | error e => right; exact ⟨rfl, rfl, rfl, rfl⟩
    | ok v =>
      dsimp only
      by_cases hs : v.scheme = []
      · rw [if_pos hs]; exact fetchStage2_shape _ _
      · rw [if_neg hs]; exact fetchStage2_shape _ _
  rcases hshape with h1 | h2
  · exact absurd h1 h
  · exact h2

/-- Witness for C10 at a concrete erroring input. -/
theorem claim10_witness :
    (FetchLinkPreview "%41%" netRefused).error ≠ "" ∧
    ((FetchLinkPreview "%41%" netRefused).title = "" ∧
     (FetchLinkPreview "%41%" netRefused).description = "" ∧
     (FetchLinkPreview "%41%" netRefused).image = "" ∧
     (FetchLinkPreview "%41%" netRefused).siteName = "") :=
  ⟨by decide, claim10_error_excludes_fields "%41%" netRefused (by decide)⟩

end LinkPreview
